import Mathlib

/-!
# Distance kernels of `src/methods.cpp`

A shallow embedding of the two Rcpp kernels `mahalanobis_cpp` and
`pca_distances_cpp`, with exact rational arithmetic standing in for `double`.

* A `NumericVector` is its list of entries.
* A `NumericMatrix` is R's dense storage: `nrow`, `ncol` and the entries in
  column-major order, so that entry `(i, j)` sits at offset `i + nrow * j`.
* Element access in the source (`v[i]`, `M(i, j)`) carries no run-time check
  that stops the call; an access past the end of the storage has no defined
  value.  Reads therefore return `Option`, and a kernel returns `none` exactly
  when one of its reads leaves the storage.
* Each `for (int i = 0; i < n; ++i)` is `forLoop n body init`, which threads
  the loop-carried state through the iterations `0, 1, ..., n - 1` in order.
* The rationals have no infinity and no NaN. The kernels are therefore given a
  second time, as `mahalanobis_cpp_double` and `pca_distances_cpp_double`, over
  a value type `Double` with `+Inf`, `-Inf` and `NaN`, whose special values
  follow IEEE 754 and whose finite arithmetic is exact. On finite inputs the
  two embeddings return the same values (`mahalanobis_cpp_double_toDouble`,
  `pca_distances_cpp_double_toDouble`).
-/

/-- Dense numeric vector: the entries in index order. -/
abbrev NumericVector := List ℚ

/-- Dense numeric matrix in column-major storage. -/
structure NumericMatrix where
  nrow : Nat
  ncol : Nat
  data : List ℚ
  deriving DecidableEq

/-- The storage of a matrix holds exactly `nrow * ncol` entries. -/
def NumericMatrix.WellFormed (M : NumericMatrix) : Prop :=
  M.data.length = M.nrow * M.ncol

instance (M : NumericMatrix) : Decidable M.WellFormed := by
  unfold NumericMatrix.WellFormed
  exact inferInstance

/-- Storage offset of entry `(i, j)`: `Matrix::offset` of Rcpp. -/
def NumericMatrix.offset (M : NumericMatrix) (i j : Nat) : Nat :=
  i + M.nrow * j

/-- The read `M(i, j)`; `none` when the offset is past the storage. -/
def NumericMatrix.read (M : NumericMatrix) (i j : Nat) : Option ℚ :=
  M.data[M.offset i j]?

/-- The read `v[i]`; `none` when `i` is past the storage. -/
def NumericVector.read (v : NumericVector) (i : Nat) : Option ℚ :=
  v[i]?

/-- The loop `for (int i = 0; i < n; ++i) body`, threading the state `s`. -/
def forLoop {σ : Type} (n : Nat) (body : Nat → σ → Option σ) (s : σ) : Option σ :=
  match n with
  | 0 => some s
  | m + 1 => (forLoop m body s).bind (body m)

/-- The sugar expression `X(i, _) - mu` materialised into a vector: its size
is the size of the left operand, the row of `X`, and entry `k` is
`X(i, k) - mu[k]`. -/
def rowMinus (X : NumericMatrix) (i : Nat) (mu : NumericVector) : Option NumericVector :=
  forLoop X.ncol (fun k row => do
    let x ← X.read i k
    let m ← mu.read k
    pure (row ++ [x - m])) []

/-- The kernel `mahalanobis_cpp` of `src/methods.cpp`. -/
def mahalanobis_cpp (X : NumericMatrix) (mu : NumericVector) (Sinv : NumericMatrix) :
    Option NumericVector :=
  let n := X.nrow
  let p := X.ncol
  forLoop n (fun i result => do
    let row ← rowMinus X i mu
    let tmp ← forLoop p (fun j tmp =>
      forLoop p (fun k tmp => do
        let s ← Sinv.read j k
        let r ← NumericVector.read row k
        let t ← NumericVector.read tmp j
        pure (tmp.set j (t + s * r))) tmp) (List.replicate p 0)
    let dist ← forLoop p (fun j dist => do
      let r ← NumericVector.read row j
      let t ← NumericVector.read tmp j
      pure (dist + r * t)) 0
    pure (result.set i dist)) (List.replicate n 0)

/-- The kernel `pca_distances_cpp` of `src/methods.cpp`. -/
def pca_distances_cpp (scores : NumericMatrix) (center : NumericVector) :
    Option NumericVector :=
  let n := scores.nrow
  let k := scores.ncol
  forLoop n (fun i result => do
    let dist ← forLoop k (fun j dist => do
      let s ← scores.read i j
      let c ← NumericVector.read center j
      let diff := s - c
      pure (dist + diff * diff)) 0
    pure (result.set i dist)) (List.replicate n 0)

/-! ## Entries and the sums the kernels are specified by -/

/-- Entry `i` of a vector, as a total function (zero past the end). -/
def NumericVector.entry (v : NumericVector) (i : Nat) : ℚ :=
  v.getD i 0

/-- Entry `(i, j)` of a matrix, as a total function (zero past the storage). -/
def NumericMatrix.entry (M : NumericMatrix) (i j : Nat) : ℚ :=
  M.data.getD (M.offset i j) 0

/-- Specification of one Mahalanobis entry, in the words of the spec:
`sum over j of diff[j] * (sum over k of Sinv[j,k] * diff[k])` with
`diff = X[i,:] - mu` and `p` the column count of `X`. -/
def spec_quadForm (X : NumericMatrix) (mu : NumericVector) (Sinv : NumericMatrix)
    (i : Nat) : ℚ :=
  ∑ j in Finset.range X.ncol, (X.entry i j - mu.entry j) *
    ∑ k in Finset.range X.ncol, Sinv.entry j k * (X.entry i k - mu.entry k)

/-- Specification of one reduced-space entry, in the words of the spec:
`sum over j of (scores[i,j] - center[j])^2`. -/
def spec_sqDist (scores : NumericMatrix) (center : NumericVector) (i : Nat) : ℚ :=
  ∑ j in Finset.range scores.ncol, (scores.entry i j - center.entry j) ^ 2

/-! ## Vectors and matrices given by their entries -/

/-- A vector given by its entries: `tab p g = [g 0, ..., g (p - 1)]`. -/
def tab (p : Nat) (g : Nat → ℚ) : List ℚ :=
  (List.range p).map g

/-- The `n`-by-`p` matrix with entry `f i j` at `(i, j)`, stored column-major. -/
def NumericMatrix.ofFn (n p : Nat) (f : Nat → Nat → ℚ) : NumericMatrix :=
  ⟨n, p, tab (n * p) (fun t => f (t % n) (t / n))⟩

/-- The `p`-by-`p` matrix `c * I`: `c` on the diagonal, zero elsewhere. -/
def NumericMatrix.diag (c : ℚ) (p : Nat) : NumericMatrix :=
  NumericMatrix.ofFn p p (fun j k => if j = k then c else 0)

/-- The `p`-by-`p` identity matrix. -/
def NumericMatrix.identity (p : Nat) : NumericMatrix :=
  NumericMatrix.diag 1 p

/-- A permutation of the row indices `[0, n)` as a map on all indices. -/
def permIndex {n : Nat} (σ : Equiv.Perm (Fin n)) (i : Nat) : Nat :=
  if h : i < n then (σ ⟨i, h⟩).val else i

/-- The matrix whose row `i` is row `σ i` of `X`. -/
def NumericMatrix.permuteRows (X : NumericMatrix) (σ : Equiv.Perm (Fin X.nrow)) :
    NumericMatrix :=
  NumericMatrix.ofFn X.nrow X.ncol (fun i j => X.entry (permIndex σ i) j)

/-- The length-`n` vector whose entry `i` is entry `σ i` of `v`. -/
def NumericVector.permute {n : Nat} (σ : Equiv.Perm (Fin n)) (v : NumericVector) :
    NumericVector :=
  tab n (fun i => NumericVector.entry v (permIndex σ i))

/-- The transpose of `M`: entry `(i, j)` is entry `(j, i)` of `M`. -/
def NumericMatrix.transpose (M : NumericMatrix) : NumericMatrix :=
  NumericMatrix.ofFn M.ncol M.nrow (fun i j => M.entry j i)

/-- The Gram matrix `Aᵀ * A` of an `m`-by-`p` matrix `A`: the `p`-by-`p`
matrix with entry `sum over l in [0,m) of A[l,j] * A[l,k]` at `(j, k)`. -/
def NumericMatrix.gram (A : NumericMatrix) : NumericMatrix :=
  NumericMatrix.ofFn A.ncol A.ncol
    (fun j k => ∑ l in Finset.range A.nrow, A.entry l j * A.entry l k)

/-- The matrix `X + v`: the vector `v` added to every row of `X`. -/
def NumericMatrix.addToRows (X : NumericMatrix) (v : NumericVector) : NumericMatrix :=
  NumericMatrix.ofFn X.nrow X.ncol (fun i j => X.entry i j + NumericVector.entry v j)

/-- The vector `u + v`, entry by entry, of the length of `u`. -/
def NumericVector.add (u v : NumericVector) : NumericVector :=
  tab u.length (fun j => NumericVector.entry u j + NumericVector.entry v j)

/-! ## The kernels over `double` values with infinities and NaN

The source computes in `double`, and infinities and NaN reach the kernels
like any other value. The definitions below repeat the two kernels over a
value type that has them: a finite value, `+Inf`, `-Inf` or `NaN`. Arithmetic
that involves a special value follows IEEE 754; arithmetic on two finite
values is exact, so rounding and overflow are not modelled. -/

/-- A `double`: a finite value, `+Inf`, `-Inf` or `NaN`. -/
inductive Double where
  | fin (q : ℚ)
  | posInf
  | negInf
  | nan
  deriving DecidableEq

/-- IEEE addition: `NaN` propagates, `Inf + -Inf = NaN`, an infinity absorbs
every finite value. -/
def Double.add : Double → Double → Double
  | .nan, _ => .nan
  | _, .nan => .nan
  | .posInf, .negInf => .nan
  | .negInf, .posInf => .nan
  | .posInf, _ => .posInf
  | _, .posInf => .posInf
  | .negInf, _ => .negInf
  | _, .negInf => .negInf
  | .fin a, .fin b => .fin (a + b)

/-- IEEE negation. -/
def Double.neg : Double → Double
  | .fin a => .fin (-a)
  | .posInf => .negInf
  | .negInf => .posInf
  | .nan => .nan

/-- IEEE subtraction, `a - b = a + (-b)`; in particular `Inf - Inf = NaN`. -/
def Double.sub (a b : Double) : Double :=
  Double.add a (Double.neg b)

/-- IEEE multiplication: `NaN` propagates, `0 * Inf = NaN`, otherwise an
infinity with the product of the signs. -/
def Double.mul : Double → Double → Double
  | .nan, _ => .nan
  | _, .nan => .nan
  | .fin a, .fin b => .fin (a * b)
  | .fin a, .posInf => if a = 0 then .nan else if 0 < a then .posInf else .negInf
  | .fin a, .negInf => if a = 0 then .nan else if 0 < a then .negInf else .posInf
  | .posInf, .fin b => if b = 0 then .nan else if 0 < b then .posInf else .negInf
  | .negInf, .fin b => if b = 0 then .nan else if 0 < b then .negInf else .posInf
  | .posInf, .posInf => .posInf
  | .posInf, .negInf => .negInf
  | .negInf, .posInf => .negInf
  | .negInf, .negInf => .posInf

instance : Add Double := ⟨Double.add⟩

instance : Sub Double := ⟨Double.sub⟩

instance : Mul Double := ⟨Double.mul⟩

instance : Zero Double := ⟨Double.fin 0⟩

instance (n : Nat) : OfNat Double n := ⟨Double.fin n⟩

/-- Dense vector of `double` values. -/
abbrev DoubleVector := List Double

/-- Dense matrix of `double` values in column-major storage. -/
structure DoubleMatrix where
  nrow : Nat
  ncol : Nat
  data : List Double
  deriving DecidableEq

/-- Storage offset of entry `(i, j)`. -/
def DoubleMatrix.offset (M : DoubleMatrix) (i j : Nat) : Nat :=
  i + M.nrow * j

/-- The read `M(i, j)`; `none` when the offset is past the storage. -/
def DoubleMatrix.read (M : DoubleMatrix) (i j : Nat) : Option Double :=
  M.data[M.offset i j]?

/-- The read `v[i]`; `none` when `i` is past the storage. -/
def DoubleVector.read (v : DoubleVector) (i : Nat) : Option Double :=
  v[i]?

/-- The sugar expression `X(i, _) - mu` over `double` values. -/
def rowMinus_double (X : DoubleMatrix) (i : Nat) (mu : DoubleVector) : Option DoubleVector :=
  forLoop X.ncol (fun k row => do
    let x ← X.read i k
    let m ← DoubleVector.read mu k
    pure (row ++ [x - m])) []

/-- The kernel `mahalanobis_cpp` of `src/methods.cpp` over `double` values. -/
def mahalanobis_cpp_double (X : DoubleMatrix) (mu : DoubleVector) (Sinv : DoubleMatrix) :
    Option DoubleVector :=
  let n := X.nrow
  let p := X.ncol
  forLoop n (fun i result => do
    let row ← rowMinus_double X i mu
    let tmp ← forLoop p (fun j tmp =>
      forLoop p (fun k tmp => do
        let s ← Sinv.read j k
        let r ← DoubleVector.read row k
        let t ← DoubleVector.read tmp j
        pure (tmp.set j (t + s * r))) tmp) (List.replicate p 0)
    let dist ← forLoop p (fun j dist => do
      let r ← DoubleVector.read row j
      let t ← DoubleVector.read tmp j
      pure (dist + r * t)) 0
    pure (result.set i dist)) (List.replicate n 0)

/-- The kernel `pca_distances_cpp` of `src/methods.cpp` over `double` values. -/
def pca_distances_cpp_double (scores : DoubleMatrix) (center : DoubleVector) :
    Option DoubleVector :=
  let n := scores.nrow
  let k := scores.ncol
  forLoop n (fun i result => do
    let dist ← forLoop k (fun j dist => do
      let s ← scores.read i j
      let c ← DoubleVector.read center j
      let diff := s - c
      pure (dist + diff * diff)) 0
    pure (result.set i dist)) (List.replicate n 0)

/-- The vector `v` as `double` values, every entry finite. -/
def NumericVector.toDouble (v : NumericVector) : DoubleVector :=
  v.map Double.fin

/-- The matrix `M` as `double` values, every entry finite. -/
def NumericMatrix.toDouble (M : NumericMatrix) : DoubleMatrix :=
  ⟨M.nrow, M.ncol, M.data.map Double.fin⟩

/-- Entry `i` of a `double` vector, as a total function (zero past the end). -/
def DoubleVector.entry (v : DoubleVector) (i : Nat) : Double :=
  v.getD i 0

/-- Entry `(i, j)` of a `double` matrix, as a total function (zero past the
storage). -/
def DoubleMatrix.entry (M : DoubleMatrix) (i j : Nat) : Double :=
  M.data.getD (M.offset i j) 0

/-- The matrix `X + v` in `double` arithmetic: `v` added to every row of `X`. -/
def DoubleMatrix.addToRows (X : DoubleMatrix) (v : DoubleVector) : DoubleMatrix :=
  ⟨X.nrow, X.ncol, (List.range (X.nrow * X.ncol)).map (fun t =>
    X.entry (t % X.nrow) (t / X.nrow) + DoubleVector.entry v (t / X.nrow))⟩

/-- The vector `u + v` in `double` arithmetic, of the length of `u`. -/
def DoubleVector.add (u v : DoubleVector) : DoubleVector :=
  (List.range u.length).map (fun j => DoubleVector.entry u j + DoubleVector.entry v j)

/-! ## Reads inside the storage -/

theorem NumericVector.read_of_lt_length (v : NumericVector) (i : Nat) (h : i < v.length) :
    NumericVector.read v i = some (NumericVector.entry v i) := by
  simp [NumericVector.read, NumericVector.entry, List.getD, List.getElem?_eq_getElem h]

theorem NumericMatrix.offset_lt (M : NumericMatrix) (hM : M.WellFormed) (i j : Nat)
    (hi : i < M.nrow) (hj : j < M.ncol) : M.offset i j < M.data.length := by
  unfold NumericMatrix.WellFormed at hM
  unfold NumericMatrix.offset
  rw [hM]
  calc i + M.nrow * j < M.nrow + M.nrow * j := by omega
    _ = M.nrow * (j + 1) := by ring
    _ ≤ M.nrow * M.ncol := Nat.mul_le_mul_left _ hj

theorem NumericMatrix.read_of_lt_dims (M : NumericMatrix) (hM : M.WellFormed) (i j : Nat)
    (hi : i < M.nrow) (hj : j < M.ncol) : M.read i j = some (M.entry i j) := by
  have h := M.offset_lt hM i j hi hj
  simp [NumericMatrix.read, NumericMatrix.entry, List.getD, List.getElem?_eq_getElem h]

/-! ## Loops -/

/-- A loop whose `i`-th iteration takes `f i` to `f (i + 1)` ends in `f n`. -/
theorem forLoop_eq_some {σ : Type} (n : Nat) (body : Nat → σ → Option σ) (f : Nat → σ)
    (hstep : ∀ i, i < n → body i (f i) = some (f (i + 1))) :
    forLoop n body (f 0) = some (f n) := by
  induction n with
  | zero => rfl
  | succ m ih =>
    have hm : forLoop m body (f 0) = some (f m) :=
      ih (fun i hi => hstep i (Nat.lt_succ_of_lt hi))
    simp [forLoop, hm, hstep m (Nat.lt_succ_self m)]

theorem tab_length (p : Nat) (g : Nat → ℚ) : (tab p g).length = p := by
  simp [tab]

theorem tab_read (p : Nat) (g : Nat → ℚ) (j : Nat) (hj : j < p) :
    NumericVector.read (tab p g) j = some (g j) := by
  simp [NumericVector.read, tab, List.getElem?_range hj]

theorem tab_getElem? (p : Nat) (g : Nat → ℚ) (j : Nat) (hj : j < p) :
    (tab p g)[j]? = some (g j) := by
  simp [tab, List.getElem?_range hj]

theorem tab_succ (p : Nat) (g : Nat → ℚ) : tab (p + 1) g = tab p g ++ [g p] := by
  simp [tab, List.range_succ]

theorem tab_congr (p : Nat) (g h : Nat → ℚ) (hgh : ∀ j, j < p → g j = h j) :
    tab p g = tab p h := by
  unfold tab
  apply List.map_congr_left
  intro j hj
  exact hgh j (List.mem_range.mp hj)

theorem tab_set (p : Nat) (g : Nat → ℚ) (j : Nat) (v : ℚ) :
    (tab p g).set j v = tab p (Function.update g j v) := by
  apply List.ext_getElem?
  intro m
  by_cases hm : m < p
  · rw [tab_getElem? p _ m hm, List.getElem?_set]
    by_cases hjm : j = m
    · subst hjm
      simp [tab_length, hm]
    · have hmj : m ≠ j := fun h => hjm h.symm
      simp [hjm, tab_getElem? p g m hm, Function.update_noteq hmj]
  · have h1 : (tab p (Function.update g j v)).length ≤ m := by
      rw [tab_length]; omega
    have h2 : ((tab p g).set j v).length ≤ m := by
      rw [List.length_set, tab_length]; omega
    rw [List.getElem?_eq_none h1, List.getElem?_eq_none h2]

theorem tab_zero_eq_replicate (p : Nat) : tab p (fun _ => 0) = List.replicate p 0 := by
  apply List.ext_getElem?
  intro m
  by_cases hm : m < p
  · rw [tab_getElem? p _ m hm]
    simp [List.getElem?_replicate, hm]
  · have h1 : (tab p (fun _ => (0 : ℚ))).length ≤ m := by
      rw [tab_length]; omega
    rw [List.getElem?_eq_none h1]
    simp [List.getElem?_replicate, hm]

/-! ## Entries of the constructed matrices -/

theorem NumericMatrix.ofFn_wellFormed (n p : Nat) (f : Nat → Nat → ℚ) :
    (NumericMatrix.ofFn n p f).WellFormed := by
  simp [NumericMatrix.ofFn, NumericMatrix.WellFormed, tab_length]

theorem NumericMatrix.ofFn_entry (n p : Nat) (f : Nat → Nat → ℚ) (i j : Nat)
    (hi : i < n) (hj : j < p) : (NumericMatrix.ofFn n p f).entry i j = f i j := by
  have hlt : i + n * j < n * p :=
    calc i + n * j < n + n * j := by omega
      _ = n * (j + 1) := by ring
      _ ≤ n * p := Nat.mul_le_mul_left _ hj
  have hn : 0 < n := by omega
  have h1 : (i + n * j) % n = i := by
    rw [Nat.add_mul_mod_self_left]
    exact Nat.mod_eq_of_lt hi
  have h2 : (i + n * j) / n = j := by
    rw [Nat.add_mul_div_left _ _ hn, Nat.div_eq_of_lt hi]
    omega
  simp only [NumericMatrix.entry, NumericMatrix.ofFn, NumericMatrix.offset,
    List.getD_eq_getElem?_getD, tab_getElem? _ _ _ hlt, Option.getD_some, h1, h2]

theorem permIndex_lt {n : Nat} (σ : Equiv.Perm (Fin n)) (i : Nat) (hi : i < n) :
    permIndex σ i < n := by
  simp [permIndex, hi]

theorem tab_entry (n : Nat) (q : Nat → ℚ) (i : Nat) (hi : i < n) :
    NumericVector.entry (tab n q) i = q i := by
  simp only [NumericVector.entry, List.getD_eq_getElem?_getD, tab_getElem? n q i hi,
    Option.getD_some]

/-! ## The stages of `mahalanobis_cpp` -/

/-- The centred row is the table of the differences `X(i, k) - mu[k]`. -/
theorem rowMinus_eq_some (X : NumericMatrix) (mu : NumericVector) (i : Nat)
    (hX : X.WellFormed) (hi : i < X.nrow) (hmu : X.ncol ≤ mu.length) :
    rowMinus X i mu = some (tab X.ncol (fun k => X.entry i k - mu.entry k)) := by
  have h := forLoop_eq_some X.ncol (fun k row => do
      let x ← X.read i k
      let m ← mu.read k
      pure (row ++ [x - m])) (fun k => tab k (fun k => X.entry i k - mu.entry k))
    (by
      intro k hk
      simp [X.read_of_lt_dims hX i k hi hk, NumericVector.read_of_lt_length mu k (by omega),
        tab_succ])
  simpa [rowMinus, tab] using h

/-- The loop over `k` adds the `j`-th entry of the product to `tmp[j]`. -/
theorem innerLoop_eq_some (Sinv : NumericMatrix) (p : Nat) (d g : Nat → ℚ) (j : Nat)
    (hS : Sinv.WellFormed) (hj : j < p) (hr : p ≤ Sinv.nrow) (hc : p ≤ Sinv.ncol) :
    forLoop p (fun k tmp => do
        let s ← Sinv.read j k
        let r ← NumericVector.read (tab p d) k
        let t ← NumericVector.read tmp j
        pure (tmp.set j (t + s * r))) (tab p g)
      = some (tab p (Function.update g j
          (g j + ∑ k in Finset.range p, Sinv.entry j k * d k))) := by
  have h := forLoop_eq_some p (fun k tmp => do
        let s ← Sinv.read j k
        let r ← NumericVector.read (tab p d) k
        let t ← NumericVector.read tmp j
        pure (tmp.set j (t + s * r)))
      (fun m => tab p (Function.update g j
          (g j + ∑ k in Finset.range m, Sinv.entry j k * d k)))
    (by
      intro k hk
      simp [Sinv.read_of_lt_dims hS j k (by omega) (by omega), tab_read p _ k hk,
        tab_read p _ j hj, tab_set, Finset.sum_range_succ, add_assoc])
  simpa using h

/-- The two nested loops fill `tmp` with the matrix-vector product. -/
theorem matVecLoop_eq_some (Sinv : NumericMatrix) (p : Nat) (d : Nat → ℚ)
    (hS : Sinv.WellFormed) (hr : p ≤ Sinv.nrow) (hc : p ≤ Sinv.ncol) :
    forLoop p (fun j tmp =>
        forLoop p (fun k tmp => do
          let s ← Sinv.read j k
          let r ← NumericVector.read (tab p d) k
          let t ← NumericVector.read tmp j
          pure (tmp.set j (t + s * r))) tmp) (List.replicate p 0)
      = some (tab p (fun j => ∑ k in Finset.range p, Sinv.entry j k * d k)) := by
  have h := forLoop_eq_some p (fun j tmp =>
        forLoop p (fun k tmp => do
          let s ← Sinv.read j k
          let r ← NumericVector.read (tab p d) k
          let t ← NumericVector.read tmp j
          pure (tmp.set j (t + s * r))) tmp)
      (fun m => tab p (fun j =>
          if j < m then ∑ k in Finset.range p, Sinv.entry j k * d k else 0))
    (by
      intro j hj
      show forLoop p _ (tab p _) = _
      rw [innerLoop_eq_some Sinv p d _ j hS hj hr hc]
      congr 1
      apply tab_congr
      intro m _
      by_cases hmj : m = j
      · subst hmj
        simp
      · have h1 : m < j + 1 ↔ m < j := by omega
        simp [Function.update_noteq hmj, h1])
  simp only [Nat.not_lt_zero, if_false] at h
  rw [tab_zero_eq_replicate] at h
  rw [h]
  congr 1
  apply tab_congr
  intro m hm
  simp [hm]

/-- The last loop over `j` is the dot product of `row` and `tmp`. -/
theorem dotLoop_eq_some (p : Nat) (d t : Nat → ℚ) :
    forLoop p (fun j dist => do
        let r ← NumericVector.read (tab p d) j
        let t ← NumericVector.read (tab p t) j
        pure (dist + r * t)) 0
      = some (∑ j in Finset.range p, d j * t j) := by
  have h := forLoop_eq_some p (fun j dist => do
        let r ← NumericVector.read (tab p d) j
        let t ← NumericVector.read (tab p t) j
        pure (dist + r * t))
      (fun m => ∑ j in Finset.range m, d j * t j)
    (by
      intro j hj
      simp [tab_read p _ j hj, Finset.sum_range_succ])
  simpa using h

/-- A loop that stores `q i` into slot `i` of a zeroed vector of length `n`
returns the table of `q`. -/
theorem storeLoop_eq_some (n : Nat) (q : Nat → ℚ) (body : Nat → List ℚ → Option (List ℚ))
    (hbody : ∀ i, i < n → ∀ result, body i result = some (result.set i (q i))) :
    forLoop n body (List.replicate n 0) = some (tab n q) := by
  have h := forLoop_eq_some n body
      (fun m => tab n (fun i => if i < m then q i else 0))
    (by
      intro i hi
      rw [hbody i hi, tab_set]
      congr 1
      apply tab_congr
      intro m _
      by_cases hmi : m = i
      · subst hmi
        simp
      · have h1 : m < i + 1 ↔ m < i := by omega
        simp [Function.update_noteq hmi, h1])
  simp only [Nat.not_lt_zero, if_false] at h
  rw [tab_zero_eq_replicate] at h
  rw [h]
  congr 1
  apply tab_congr
  intro m hm
  simp [hm]

/-! ## What the kernels return on inputs they can read -/

/-- Whenever `mu` has at least `p` entries and `Sinv` at least `p` rows and
`p` columns, `mahalanobis_cpp` returns the table of the quadratic forms. -/
theorem mahalanobis_cpp_eq_some (X : NumericMatrix) (mu : NumericVector)
    (Sinv : NumericMatrix) (hX : X.WellFormed) (hmu : X.ncol ≤ mu.length)
    (hS : Sinv.WellFormed) (hr : X.ncol ≤ Sinv.nrow) (hc : X.ncol ≤ Sinv.ncol) :
    mahalanobis_cpp X mu Sinv = some (tab X.nrow (spec_quadForm X mu Sinv)) := by
  unfold mahalanobis_cpp
  apply storeLoop_eq_some
  intro i hi result
  have h1 := matVecLoop_eq_some Sinv X.ncol (fun k => X.entry i k - mu.entry k) hS hr hc
  have h2 := dotLoop_eq_some X.ncol (fun k => X.entry i k - mu.entry k)
    (fun j => ∑ k in Finset.range X.ncol, Sinv.entry j k * (X.entry i k - mu.entry k))
  simp only [Option.bind_eq_bind, Option.pure_def] at h1 h2
  simp only [rowMinus_eq_some X mu i hX hi hmu, Option.bind_eq_bind, Option.some_bind,
    Option.pure_def, h1, h2]
  rfl

/-- Whenever `center` has at least `k` entries, `pca_distances_cpp` returns
the table of the sums of squares. -/
theorem pca_distances_cpp_eq_some (scores : NumericMatrix) (center : NumericVector)
    (hX : scores.WellFormed) (hc : scores.ncol ≤ center.length) :
    pca_distances_cpp scores center = some (tab scores.nrow (spec_sqDist scores center)) := by
  unfold pca_distances_cpp
  apply storeLoop_eq_some
  intro i hi result
  have h := forLoop_eq_some scores.ncol (fun j dist => do
        let s ← scores.read i j
        let c ← NumericVector.read center j
        let diff := s - c
        pure (dist + diff * diff))
      (fun m => ∑ j in Finset.range m, (scores.entry i j - center.entry j) ^ 2)
    (by
      intro j hj
      simp [scores.read_of_lt_dims hX i j hi hj,
        NumericVector.read_of_lt_length center j (by omega),
        Finset.sum_range_succ, pow_two])
  simp only [Finset.range_zero, Finset.sum_empty, Option.bind_eq_bind, Option.pure_def] at h
  simp only [h, Option.bind_eq_bind, Option.some_bind, Option.pure_def]
  rfl

/-- The table `tab n q` has `q i` in slot `i`, for every `i < n`. -/
theorem tab_spec (n : Nat) (q : Nat → ℚ) :
    (tab n q).length = n ∧ ∀ i, i < n → (tab n q)[i]? = some (q i) :=
  ⟨tab_length n q, fun i hi => tab_getElem? n q i hi⟩

/-! ## Algebra of the two sums -/

/-- With `Sinv = c * I` the quadratic form is `c` times the sum of squares. -/
theorem spec_quadForm_diag (X : NumericMatrix) (mu : NumericVector) (c : ℚ) (i : Nat) :
    spec_quadForm X mu (NumericMatrix.diag c X.ncol) i = c * spec_sqDist X mu i := by
  unfold spec_quadForm spec_sqDist
  rw [Finset.mul_sum]
  apply Finset.sum_congr rfl
  intro j hj
  have hj' : j < X.ncol := Finset.mem_range.mp hj
  have hsum : ∑ k in Finset.range X.ncol, (NumericMatrix.diag c X.ncol).entry j k *
      (X.entry i k - mu.entry k) = c * (X.entry i j - mu.entry j) := by
    rw [Finset.sum_eq_single j]
    · rw [NumericMatrix.diag, NumericMatrix.ofFn_entry _ _ _ _ _ hj' hj']
      simp
    · intro k hk hkj
      rw [NumericMatrix.diag, NumericMatrix.ofFn_entry _ _ _ _ _ hj' (Finset.mem_range.mp hk)]
      simp [Ne.symm hkj]
    · intro h
      exact absurd hj h
  rw [hsum]
  ring

/-- The quadratic form vanishes on a row equal to `mu`. -/
theorem spec_quadForm_eq_zero (X : NumericMatrix) (mu : NumericVector) (Sinv : NumericMatrix)
    (i : Nat) (hrow : ∀ j, j < X.ncol → X.entry i j = mu.entry j) :
    spec_quadForm X mu Sinv i = 0 := by
  unfold spec_quadForm
  apply Finset.sum_eq_zero
  intro j hj
  rw [hrow j (Finset.mem_range.mp hj)]
  simp

/-- The sum of squares vanishes on a row equal to `center`. -/
theorem spec_sqDist_eq_zero (scores : NumericMatrix) (center : NumericVector)
    (i : Nat) (hrow : ∀ j, j < scores.ncol → scores.entry i j = center.entry j) :
    spec_sqDist scores center i = 0 := by
  unfold spec_sqDist
  apply Finset.sum_eq_zero
  intro j hj
  rw [hrow j (Finset.mem_range.mp hj)]
  simp

/-- Permuting the rows of `X` permutes the quadratic forms. -/
theorem spec_quadForm_permuteRows (X : NumericMatrix) (mu : NumericVector)
    (Sinv : NumericMatrix) (σ : Equiv.Perm (Fin X.nrow)) (i : Nat) (hi : i < X.nrow) :
    spec_quadForm (X.permuteRows σ) mu Sinv i = spec_quadForm X mu Sinv (permIndex σ i) := by
  have hent : ∀ j, j < X.ncol → (X.permuteRows σ).entry i j = X.entry (permIndex σ i) j :=
    fun j hj => NumericMatrix.ofFn_entry _ _ _ i j hi hj
  unfold spec_quadForm
  show ∑ j in Finset.range X.ncol, _ = _
  apply Finset.sum_congr rfl
  intro j hj
  rw [hent j (Finset.mem_range.mp hj)]
  congr 1
  show ∑ k in Finset.range X.ncol, _ = _
  apply Finset.sum_congr rfl
  intro k hk
  rw [hent k (Finset.mem_range.mp hk)]

/-- Permuting the rows of `scores` permutes the sums of squares. -/
theorem spec_sqDist_permuteRows (scores : NumericMatrix) (center : NumericVector)
    (σ : Equiv.Perm (Fin scores.nrow)) (i : Nat) (hi : i < scores.nrow) :
    spec_sqDist (scores.permuteRows σ) center i
      = spec_sqDist scores center (permIndex σ i) := by
  unfold spec_sqDist
  show ∑ j in Finset.range scores.ncol, _ = _
  apply Finset.sum_congr rfl
  intro j hj
  rw [show (scores.permuteRows σ).entry i j = scores.entry (permIndex σ i) j from
    NumericMatrix.ofFn_entry _ _ _ i j hi (Finset.mem_range.mp hj)]

/-- A property of the loop state that every iteration keeps holds at exit. -/
theorem forLoop_preserves {σ : Type} (P : σ → Prop) (n : Nat) (body : Nat → σ → Option σ)
    (s : σ) (hs : P s) (hbody : ∀ i t t', P t → body i t = some t' → P t') :
    ∀ t, forLoop n body s = some t → P t := by
  induction n with
  | zero =>
    intro t ht
    simp only [forLoop, Option.some.injEq] at ht
    exact ht ▸ hs
  | succ m ih =>
    intro t ht
    simp only [forLoop, Option.bind_eq_some] at ht
    obtain ⟨u, hu, hut⟩ := ht
    exact hbody m u t (ih u hu) hut

/-- Whatever `mahalanobis_cpp` returns has one entry per row of `X`. -/
theorem mahalanobis_cpp_length (X : NumericMatrix) (mu : NumericVector)
    (Sinv : NumericMatrix) (result : NumericVector)
    (h : mahalanobis_cpp X mu Sinv = some result) : result.length = X.nrow := by
  unfold mahalanobis_cpp at h
  refine forLoop_preserves (fun t : List ℚ => t.length = X.nrow) _ _ _ (by simp) ?_ result h
  intro i t t' ht hb
  simp only [Option.bind_eq_bind, Option.pure_def, Option.bind_eq_some,
    Option.some.injEq] at hb
  obtain ⟨_, _, _, _, _, _, rfl⟩ := hb
  simpa using ht

/-- Whatever `pca_distances_cpp` returns has one entry per row of `scores`. -/
theorem pca_distances_cpp_length (scores : NumericMatrix) (center : NumericVector)
    (result : NumericVector) (h : pca_distances_cpp scores center = some result) :
    result.length = scores.nrow := by
  unfold pca_distances_cpp at h
  refine forLoop_preserves (fun t : List ℚ => t.length = scores.nrow) _ _ _ (by simp) ?_
    result h
  intro i t t' ht hb
  simp only [Option.bind_eq_bind, Option.pure_def, Option.bind_eq_some,
    Option.some.injEq] at hb
  obtain ⟨_, _, rfl⟩ := hb
  simpa using ht

/-! ## Further algebra: agreement on a row, translation, transpose, Gram matrices -/

/-- The quadratic form at row `i` reads `X` on row `i` only. -/
theorem spec_quadForm_congr_row (X Y : NumericMatrix) (mu : NumericVector)
    (Sinv : NumericMatrix) (i : Nat) (hp : Y.ncol = X.ncol)
    (hrow : ∀ j, j < X.ncol → X.entry i j = Y.entry i j) :
    spec_quadForm X mu Sinv i = spec_quadForm Y mu Sinv i := by
  unfold spec_quadForm
  rw [hp]
  apply Finset.sum_congr rfl
  intro j hj
  rw [hrow j (Finset.mem_range.mp hj)]
  congr 1
  apply Finset.sum_congr rfl
  intro k hk
  rw [hrow k (Finset.mem_range.mp hk)]

/-- The sum of squares at row `i` reads `scores` on row `i` only. -/
theorem spec_sqDist_congr_row (S T : NumericMatrix) (center : NumericVector) (i : Nat)
    (hp : T.ncol = S.ncol) (hrow : ∀ j, j < S.ncol → S.entry i j = T.entry i j) :
    spec_sqDist S center i = spec_sqDist T center i := by
  unfold spec_sqDist
  rw [hp]
  apply Finset.sum_congr rfl
  intro j hj
  rw [hrow j (Finset.mem_range.mp hj)]

/-- Entry `j` of `u + v`, for `j` inside `u`. -/
theorem add_entry (u v : NumericVector) (j : Nat) (hj : j < u.length) :
    NumericVector.entry (NumericVector.add u v) j
      = NumericVector.entry u j + NumericVector.entry v j :=
  tab_entry u.length _ j hj

/-- Translating the rows of `X` and `mu` by `v` leaves every difference
`X[i,j] - mu[j]` as it was. -/
theorem addToRows_diff (X : NumericMatrix) (mu v : NumericVector) (i j : Nat)
    (hi : i < X.nrow) (hj : j < X.ncol) (hmu : X.ncol ≤ mu.length) :
    (X.addToRows v).entry i j - NumericVector.entry (NumericVector.add mu v) j
      = X.entry i j - NumericVector.entry mu j := by
  rw [add_entry mu v j (by omega), NumericMatrix.addToRows,
    NumericMatrix.ofFn_entry _ _ _ i j hi hj]
  ring

/-- The quadratic form is unchanged by transposing `Sinv`. -/
theorem spec_quadForm_transpose (X : NumericMatrix) (mu : NumericVector)
    (Sinv : NumericMatrix) (i : Nat) (hr : Sinv.nrow = X.ncol) (hc : Sinv.ncol = X.ncol) :
    spec_quadForm X mu Sinv.transpose i = spec_quadForm X mu Sinv i := by
  have hent : ∀ j k, j < X.ncol → k < X.ncol →
      Sinv.transpose.entry j k = Sinv.entry k j := by
    intro j k hj hk
    exact NumericMatrix.ofFn_entry _ _ _ j k (by omega) (by omega)
  unfold spec_quadForm
  simp only [Finset.mul_sum]
  rw [Finset.sum_comm]
  apply Finset.sum_congr rfl
  intro j hj
  apply Finset.sum_congr rfl
  intro k hk
  rw [hent k j (Finset.mem_range.mp hk) (Finset.mem_range.mp hj)]
  ring

/-- With `Sinv = Aᵀ * A` the quadratic form is the squared norm of
`A * (X[i,:] - mu)`. -/
theorem spec_quadForm_gram (X : NumericMatrix) (mu : NumericVector) (A : NumericMatrix)
    (i : Nat) (hA : A.ncol = X.ncol) :
    spec_quadForm X mu A.gram i
      = ∑ l in Finset.range A.nrow,
          (∑ k in Finset.range X.ncol, A.entry l k * (X.entry i k - mu.entry k)) ^ 2 := by
  have hent : ∀ j k, j < X.ncol → k < X.ncol →
      A.gram.entry j k = ∑ l in Finset.range A.nrow, A.entry l j * A.entry l k := by
    intro j k hj hk
    exact NumericMatrix.ofFn_entry _ _ _ j k (by omega) (by omega)
  have hterm : ∀ j ∈ Finset.range X.ncol,
      (X.entry i j - mu.entry j) *
          ∑ k in Finset.range X.ncol, A.gram.entry j k * (X.entry i k - mu.entry k)
        = ∑ l in Finset.range A.nrow, ∑ k in Finset.range X.ncol,
            (A.entry l j * (X.entry i j - mu.entry j)) *
              (A.entry l k * (X.entry i k - mu.entry k)) := by
    intro j hj
    rw [Finset.mul_sum, Finset.sum_comm]
    apply Finset.sum_congr rfl
    intro k hk
    rw [hent j k (Finset.mem_range.mp hj) (Finset.mem_range.mp hk), Finset.sum_mul,
      Finset.mul_sum]
    apply Finset.sum_congr rfl
    intro l _
    ring
  unfold spec_quadForm
  rw [Finset.sum_congr rfl hterm, Finset.sum_comm]
  apply Finset.sum_congr rfl
  intro l _
  rw [pow_two, Finset.sum_mul_sum]

/-- The sum of squares is never negative. -/
theorem spec_sqDist_nonneg (scores : NumericMatrix) (center : NumericVector) (i : Nat) :
    0 ≤ spec_sqDist scores center i := by
  unfold spec_sqDist
  apply Finset.sum_nonneg
  intro j _
  exact sq_nonneg _

/-- The sum of squares vanishes only on a row equal to `center`. -/
theorem spec_sqDist_eq_zero_imp (scores : NumericMatrix) (center : NumericVector) (i : Nat)
    (h : spec_sqDist scores center i = 0) :
    ∀ j, j < scores.ncol → scores.entry i j = center.entry j := by
  unfold spec_sqDist at h
  intro j hj
  have hz := (Finset.sum_eq_zero_iff_of_nonneg (fun k _ => sq_nonneg _)).mp h j
    (Finset.mem_range.mpr hj)
  exact sub_eq_zero.mp ((pow_eq_zero_iff (by decide)).mp hz)

/-- Translating `X` and `mu` by the same `v` leaves the quadratic form as it was. -/
theorem spec_quadForm_translate (X : NumericMatrix) (mu v : NumericVector)
    (Sinv : NumericMatrix) (i : Nat) (hi : i < X.nrow) (hmu : X.ncol ≤ mu.length) :
    spec_quadForm (X.addToRows v) (NumericVector.add mu v) Sinv i
      = spec_quadForm X mu Sinv i := by
  unfold spec_quadForm
  show ∑ j in Finset.range X.ncol, _ = _
  apply Finset.sum_congr rfl
  intro j hj
  rw [addToRows_diff X mu v i j hi (Finset.mem_range.mp hj) hmu]
  congr 1
  show ∑ k in Finset.range X.ncol, _ = _
  apply Finset.sum_congr rfl
  intro k hk
  rw [addToRows_diff X mu v i k hi (Finset.mem_range.mp hk) hmu]

/-- Translating `scores` and `center` by the same `v` leaves the sum of squares
as it was. -/
theorem spec_sqDist_translate (scores : NumericMatrix) (center v : NumericVector)
    (i : Nat) (hi : i < scores.nrow) (hc : scores.ncol ≤ center.length) :
    spec_sqDist (scores.addToRows v) (NumericVector.add center v) i
      = spec_sqDist scores center i := by
  unfold spec_sqDist
  show ∑ j in Finset.range scores.ncol, _ = _
  apply Finset.sum_congr rfl
  intro j hj
  rw [addToRows_diff scores center v i j hi (Finset.mem_range.mp hj) hc]

/-! ## The `double` kernels on finite values

On inputs all of whose entries are finite the `double` kernels compute what
the kernels over the rationals compute. -/

theorem fin_add (a b : ℚ) : Double.fin a + Double.fin b = Double.fin (a + b) :=
  rfl

theorem fin_sub (a b : ℚ) : Double.fin a - Double.fin b = Double.fin (a - b) := by
  show Double.fin (a + -b) = Double.fin (a - b)
  rw [sub_eq_add_neg]

theorem fin_mul (a b : ℚ) : Double.fin a * Double.fin b = Double.fin (a * b) :=
  rfl

theorem toDouble_read (v : NumericVector) (i : Nat) :
    DoubleVector.read (NumericVector.toDouble v) i
      = (NumericVector.read v i).map Double.fin := by
  simp [DoubleVector.read, NumericVector.read, NumericVector.toDouble]

theorem toDouble_read_matrix (M : NumericMatrix) (i j : Nat) :
    M.toDouble.read i j = (M.read i j).map Double.fin := by
  simp [DoubleMatrix.read, NumericMatrix.read, NumericMatrix.toDouble,
    DoubleMatrix.offset, NumericMatrix.offset]

/-- Two loops whose bodies correspond under `f` end in corresponding states. -/
theorem forLoop_map {σ τ : Type} (f : σ → τ) (n : Nat) (body : Nat → σ → Option σ)
    (body' : Nat → τ → Option τ)
    (h : ∀ i s, body' i (f s) = (body i s).map f) (s : σ) (s' : τ) (hs : s' = f s) :
    forLoop n body' s' = (forLoop n body s).map f := by
  subst hs
  induction n with
  | zero => rfl
  | succ m ih =>
    simp only [forLoop, ih]
    cases forLoop m body s with
    | none => rfl
    | some t => simp [h m t]

theorem rowMinus_toDouble (X : NumericMatrix) (i : Nat) (mu : NumericVector) :
    rowMinus_double X.toDouble i (NumericVector.toDouble mu)
      = (rowMinus X i mu).map NumericVector.toDouble := by
  unfold rowMinus_double rowMinus
  refine forLoop_map NumericVector.toDouble X.ncol _ _ ?_ [] [] rfl
  intro k row
  show (do
      let x ← X.toDouble.read i k
      let m ← DoubleVector.read (NumericVector.toDouble mu) k
      pure (NumericVector.toDouble row ++ [x - m])) = _
  rw [toDouble_read_matrix, toDouble_read]
  cases X.read i k with
  | none => rfl
  | some x =>
    cases NumericVector.read mu k with
    | none => rfl
    | some m => simp [NumericVector.toDouble, fin_sub]

theorem toDouble_nrow (M : NumericMatrix) : M.toDouble.nrow = M.nrow :=
  rfl

theorem toDouble_ncol (M : NumericMatrix) : M.toDouble.ncol = M.ncol :=
  rfl

theorem replicate_zero_toDouble (p : Nat) :
    List.replicate p (0 : Double) = NumericVector.toDouble (List.replicate p 0) := by
  simp only [NumericVector.toDouble, List.map_replicate]
  rfl

theorem matVecLoop_toDouble (Sinv : NumericMatrix) (p : Nat) (row : NumericVector) :
    forLoop p (fun j tmp =>
        forLoop p (fun k tmp => do
          let s ← Sinv.toDouble.read j k
          let r ← DoubleVector.read (NumericVector.toDouble row) k
          let t ← DoubleVector.read tmp j
          pure (tmp.set j (t + s * r))) tmp) (List.replicate p 0)
      = (forLoop p (fun j tmp =>
        forLoop p (fun k tmp => do
          let s ← Sinv.read j k
          let r ← NumericVector.read row k
          let t ← NumericVector.read tmp j
          pure (tmp.set j (t + s * r))) tmp) (List.replicate p 0)).map
          NumericVector.toDouble := by
  refine forLoop_map NumericVector.toDouble p _ _ ?_ _ _ (replicate_zero_toDouble p)
  intro j tmp
  refine forLoop_map NumericVector.toDouble p _ _ ?_ _ _ rfl
  intro k tmp
  show (do
      let s ← Sinv.toDouble.read j k
      let r ← DoubleVector.read (NumericVector.toDouble row) k
      let t ← DoubleVector.read (NumericVector.toDouble tmp) j
      pure ((NumericVector.toDouble tmp).set j (t + s * r))) = _
  rw [toDouble_read_matrix, toDouble_read, toDouble_read]
  cases Sinv.read j k with
  | none => rfl
  | some s =>
    cases NumericVector.read row k with
    | none => rfl
    | some r =>
      cases NumericVector.read tmp j with
      | none => rfl
      | some t => simp [NumericVector.toDouble, fin_add, fin_mul]

theorem dotLoop_toDouble (p : Nat) (row tmp : NumericVector) :
    forLoop p (fun j dist => do
        let r ← DoubleVector.read (NumericVector.toDouble row) j
        let t ← DoubleVector.read (NumericVector.toDouble tmp) j
        pure (dist + r * t)) 0
      = (forLoop p (fun j dist => do
        let r ← NumericVector.read row j
        let t ← NumericVector.read tmp j
        pure (dist + r * t)) 0).map Double.fin := by
  refine forLoop_map Double.fin p _ _ ?_ 0 0 rfl
  intro j dist
  show (do
      let r ← DoubleVector.read (NumericVector.toDouble row) j
      let t ← DoubleVector.read (NumericVector.toDouble tmp) j
      pure (Double.fin dist + r * t)) = _
  rw [toDouble_read, toDouble_read]
  cases NumericVector.read row j with
  | none => rfl
  | some r =>
    cases NumericVector.read tmp j with
    | none => rfl
    | some t => simp [fin_add, fin_mul]

/-- On finite inputs `mahalanobis_cpp_double` returns what `mahalanobis_cpp`
returns, and fails where it fails. -/
theorem mahalanobis_cpp_double_toDouble (X : NumericMatrix) (mu : NumericVector)
    (Sinv : NumericMatrix) :
    mahalanobis_cpp_double X.toDouble (NumericVector.toDouble mu) Sinv.toDouble
      = (mahalanobis_cpp X mu Sinv).map NumericVector.toDouble := by
  unfold mahalanobis_cpp_double mahalanobis_cpp
  refine forLoop_map NumericVector.toDouble X.nrow _ _ ?_ _ _
    (replicate_zero_toDouble X.nrow)
  intro i result
  simp only [Option.bind_eq_bind, Option.pure_def, toDouble_ncol]
  rw [rowMinus_toDouble]
  cases rowMinus X i mu with
  | none => rfl
  | some row =>
    simp only [Option.map_some', Option.some_bind]
    have h1 := matVecLoop_toDouble Sinv X.ncol row
    simp only [Option.bind_eq_bind, Option.pure_def] at h1
    show (forLoop X.ncol _ (List.replicate X.ncol 0)).bind _ = _
    rw [h1]
    cases forLoop X.ncol (fun j tmp =>
        forLoop X.ncol (fun k tmp =>
          (Sinv.read j k).bind fun s =>
            (NumericVector.read row k).bind fun r =>
              (NumericVector.read tmp j).bind fun t =>
                some (tmp.set j (t + s * r))) tmp) (List.replicate X.ncol 0) with
    | none => rfl
    | some tmp =>
      simp only [Option.map_some', Option.some_bind]
      have h2 := dotLoop_toDouble X.ncol row tmp
      simp only [Option.bind_eq_bind, Option.pure_def] at h2
      rw [h2]
      cases forLoop X.ncol (fun j dist =>
          (NumericVector.read row j).bind fun r =>
            (NumericVector.read tmp j).bind fun t => some (dist + r * t)) 0 with
      | none => rfl
      | some dist => simp [NumericVector.toDouble]

/-- On finite inputs `pca_distances_cpp_double` returns what
`pca_distances_cpp` returns, and fails where it fails. -/
theorem pca_distances_cpp_double_toDouble (scores : NumericMatrix)
    (center : NumericVector) :
    pca_distances_cpp_double scores.toDouble (NumericVector.toDouble center)
      = (pca_distances_cpp scores center).map NumericVector.toDouble := by
  unfold pca_distances_cpp_double pca_distances_cpp
  refine forLoop_map NumericVector.toDouble scores.nrow _ _ ?_ _ _
    (replicate_zero_toDouble scores.nrow)
  intro i result
  simp only [Option.bind_eq_bind, Option.pure_def, toDouble_ncol]
  have h := forLoop_map Double.fin scores.ncol
    (fun j dist =>
      (scores.read i j).bind fun s =>
        (NumericVector.read center j).bind fun c => some (dist + (s - c) * (s - c)))
    (fun j dist =>
      (scores.toDouble.read i j).bind fun s =>
        (DoubleVector.read (NumericVector.toDouble center) j).bind fun c =>
          some (dist + (s - c) * (s - c)))
    (by
      intro j dist
      dsimp only
      rw [toDouble_read_matrix, toDouble_read]
      cases scores.read i j with
      | none => rfl
      | some x =>
        cases NumericVector.read center j with
        | none => rfl
        | some c => simp [fin_add, fin_mul, fin_sub]) 0 (Double.fin 0) rfl
  show (forLoop scores.ncol _ (Double.fin 0)).bind _ = _
  rw [h]
  cases forLoop scores.ncol (fun j dist =>
      (scores.read i j).bind fun s =>
        (NumericVector.read center j).bind fun c => some (dist + (s - c) * (s - c))) 0 with
  | none => rfl
  | some dist => simp [NumericVector.toDouble]

/-- A list of finite `double` values is the image of a list of rationals. -/
theorem finite_eq_toDouble (l : DoubleVector) (h : ∀ x, x ∈ l → ∃ q, x = Double.fin q) :
    ∃ v : NumericVector, l = NumericVector.toDouble v := by
  induction l with
  | nil => exact ⟨[], rfl⟩
  | cons x xs ih =>
    obtain ⟨q, hq⟩ := h x (List.mem_cons_self x xs)
    obtain ⟨v, hv⟩ := ih (fun y hy => h y (List.mem_cons_of_mem x hy))
    exact ⟨q :: v, by rw [hq, hv]; rfl⟩

theorem toDouble_length (v : NumericVector) : (NumericVector.toDouble v).length = v.length := by
  simp [NumericVector.toDouble]

theorem toDouble_getElem? (v : NumericVector) (i : Nat) (q : ℚ) (h : v[i]? = some q) :
    (NumericVector.toDouble v)[i]? = some (Double.fin q) := by
  simp [NumericVector.toDouble, h]

theorem toDouble_entry (v : NumericVector) (i : Nat) :
    DoubleVector.entry (NumericVector.toDouble v) i = Double.fin (NumericVector.entry v i) := by
  simp only [DoubleVector.entry, NumericVector.entry, NumericVector.toDouble,
    List.getD_eq_getElem?_getD, List.getElem?_map]
  cases v[i]? with
  | none => rfl
  | some q => rfl

theorem toDouble_entry_matrix (M : NumericMatrix) (i j : Nat) :
    M.toDouble.entry i j = Double.fin (M.entry i j) :=
  toDouble_entry M.data (M.offset i j)

/-- Translating finite values in `double` arithmetic is translating them over
the rationals. -/
theorem addToRows_toDouble (X : NumericMatrix) (v : NumericVector) :
    (X.addToRows v).toDouble = X.toDouble.addToRows (NumericVector.toDouble v) := by
  simp only [NumericMatrix.toDouble, NumericMatrix.addToRows, NumericMatrix.ofFn, tab,
    DoubleMatrix.addToRows, List.map_map, DoubleMatrix.mk.injEq, true_and]
  apply List.map_congr_left
  intro t _
  have h1 := toDouble_entry_matrix X (t % X.nrow) (t / X.nrow)
  have h2 := toDouble_entry v (t / X.nrow)
  simp only [NumericMatrix.toDouble] at h1
  simp only [Function.comp_apply, h1, h2, fin_add]

theorem add_toDouble (u v : NumericVector) :
    NumericVector.toDouble (NumericVector.add u v)
      = DoubleVector.add (NumericVector.toDouble u) (NumericVector.toDouble v) := by
  simp only [NumericVector.add, tab, DoubleVector.add, toDouble_length, toDouble_entry,
    fin_add]
  simp [NumericVector.toDouble]

/-- On finite, dimension-consistent inputs `mahalanobis_cpp_double` returns
the table of the quadratic forms. -/
theorem mahalanobis_cpp_double_eq_some (X : NumericMatrix) (mu : NumericVector)
    (Sinv : NumericMatrix) (hX : X.WellFormed) (hmu : X.ncol ≤ mu.length)
    (hS : Sinv.WellFormed) (hr : X.ncol ≤ Sinv.nrow) (hc : X.ncol ≤ Sinv.ncol) :
    mahalanobis_cpp_double X.toDouble (NumericVector.toDouble mu) Sinv.toDouble
      = some (NumericVector.toDouble (tab X.nrow (spec_quadForm X mu Sinv))) := by
  rw [mahalanobis_cpp_double_toDouble, mahalanobis_cpp_eq_some X mu Sinv hX hmu hS hr hc]
  rfl

/-- On finite, dimension-consistent inputs `pca_distances_cpp_double` returns
the table of the sums of squares. -/
theorem pca_distances_cpp_double_eq_some (scores : NumericMatrix) (center : NumericVector)
    (hX : scores.WellFormed) (hc : scores.ncol ≤ center.length) :
    pca_distances_cpp_double scores.toDouble (NumericVector.toDouble center)
      = some (NumericVector.toDouble (tab scores.nrow (spec_sqDist scores center))) := by
  rw [pca_distances_cpp_double_toDouble, pca_distances_cpp_eq_some scores center hX hc]
  rfl

theorem toDouble_tab_getElem? (n : Nat) (q : Nat → ℚ) (i : Nat) (hi : i < n) :
    (NumericVector.toDouble (tab n q))[i]? = some (Double.fin (q i)) :=
  toDouble_getElem? _ i _ (tab_getElem? n q i hi)

theorem toDouble_tab_length (n : Nat) (q : Nat → ℚ) :
    (NumericVector.toDouble (tab n q)).length = n := by
  rw [toDouble_length, tab_length]

/-! ## The claims -/

/-- C1: for every n-by-p matrix `X`, length-p vector `mu` and p-by-p matrix
`Sinv`, `mahalanobis_cpp` returns a vector of length n whose entry `i` is the
quadratic form `sum_j (X[i,j] - mu[j]) * sum_k Sinv[j,k] * (X[i,k] - mu[k])`;
and on `X = [[1,2],[3,4]]`, `mu = [1,1]`, `Sinv` the identity it returns
`[1, 13]`. -/
theorem C1_mahalanobis_quadratic_form :
    (∀ (X : NumericMatrix) (mu : NumericVector) (Sinv : NumericMatrix),
      X.WellFormed → mu.length = X.ncol →
      Sinv.WellFormed → Sinv.nrow = X.ncol → Sinv.ncol = X.ncol →
      ∃ result, mahalanobis_cpp X mu Sinv = some result ∧ result.length = X.nrow ∧
        ∀ i, i < X.nrow → result[i]? = some
          (∑ j in Finset.range X.ncol, (X.entry i j - mu.entry j) *
            ∑ k in Finset.range X.ncol, Sinv.entry j k * (X.entry i k - mu.entry k)))
    ∧ mahalanobis_cpp ⟨2, 2, [1, 3, 2, 4]⟩ [1, 1] ⟨2, 2, [1, 0, 0, 1]⟩ = some [1, 13] := by
  refine ⟨?_, by with_unfolding_all decide⟩
  intro X mu Sinv hX hmu hS hr hc
  refine ⟨_, mahalanobis_cpp_eq_some X mu Sinv hX (by omega) hS (by omega) (by omega), ?_⟩
  exact tab_spec X.nrow (spec_quadForm X mu Sinv)

/-- Witness for C1: the hypotheses hold at the spec's 2-by-2 scenario. -/
theorem C1_mahalanobis_quadratic_form_witness :
    ∃ result, mahalanobis_cpp ⟨2, 2, [1, 3, 2, 4]⟩ [1, 1] ⟨2, 2, [1, 0, 0, 1]⟩ = some result ∧
      result.length = 2 ∧
      ∀ i, i < 2 → result[i]? = some
        (∑ j in Finset.range 2,
          ((NumericMatrix.mk 2 2 [1, 3, 2, 4]).entry i j - NumericVector.entry [1, 1] j) *
          ∑ k in Finset.range 2, (NumericMatrix.mk 2 2 [1, 0, 0, 1]).entry j k *
            ((NumericMatrix.mk 2 2 [1, 3, 2, 4]).entry i k - NumericVector.entry [1, 1] k)) :=
  C1_mahalanobis_quadratic_form.1 ⟨2, 2, [1, 3, 2, 4]⟩ [1, 1] ⟨2, 2, [1, 0, 0, 1]⟩
    (by decide) (by decide) (by decide) (by decide) (by decide)

/-- C2: for every n-by-k matrix `scores` and length-k vector `center`,
`pca_distances_cpp` returns a vector of length n whose entry `i` is
`sum_j (scores[i,j] - center[j])^2`; and on `scores = [[0,0],[3,4]]`,
`center = [0,0]` it returns `[0, 25]`. -/
theorem C2_pca_squared_distance :
    (∀ (scores : NumericMatrix) (center : NumericVector),
      scores.WellFormed → center.length = scores.ncol →
      ∃ result, pca_distances_cpp scores center = some result ∧
        result.length = scores.nrow ∧
        ∀ i, i < scores.nrow → result[i]? = some
          (∑ j in Finset.range scores.ncol, (scores.entry i j - center.entry j) ^ 2))
    ∧ pca_distances_cpp ⟨2, 2, [0, 3, 0, 4]⟩ [0, 0] = some [0, 25] := by
  refine ⟨?_, by with_unfolding_all decide⟩
  intro scores center hX hc
  refine ⟨_, pca_distances_cpp_eq_some scores center hX (by omega), ?_⟩
  exact tab_spec scores.nrow (spec_sqDist scores center)

/-- Witness for C2: the hypotheses hold at the spec's 2-by-2 scenario. -/
theorem C2_pca_squared_distance_witness :
    ∃ result, pca_distances_cpp ⟨2, 2, [0, 3, 0, 4]⟩ [0, 0] = some result ∧
      result.length = 2 ∧
      ∀ i, i < 2 → result[i]? = some
        (∑ j in Finset.range 2,
          ((NumericMatrix.mk 2 2 [0, 3, 0, 4]).entry i j - NumericVector.entry [0, 0] j) ^ 2) :=
  C2_pca_squared_distance.1 ⟨2, 2, [0, 3, 0, 4]⟩ [0, 0] (by decide) (by decide)

/-- C3, as stated, fails: with `mu` of length p + 1 = 3 against a 2-column
`X`, with a 3-by-3 `Sinv`, and with a 3-by-2 `Sinv`, `mahalanobis_cpp` raises
nothing and returns a result vector. -/
theorem C3_dimension_mismatch_not_rejected :
    (List.length ([1, 1, 7] : NumericVector) ≠ (NumericMatrix.mk 2 2 [1, 3, 2, 4]).ncol ∧
      mahalanobis_cpp ⟨2, 2, [1, 3, 2, 4]⟩ [1, 1, 7] ⟨2, 2, [1, 0, 0, 1]⟩ = some [1, 13])
    ∧ ((NumericMatrix.mk 3 3 [1, 0, 5, 0, 1, 5, 5, 5, 5]).nrow
        ≠ (NumericMatrix.mk 2 2 [1, 3, 2, 4]).ncol ∧
      mahalanobis_cpp ⟨2, 2, [1, 3, 2, 4]⟩ [1, 1] ⟨3, 3, [1, 0, 5, 0, 1, 5, 5, 5, 5]⟩
        = some [1, 13])
    ∧ ((NumericMatrix.mk 3 2 [1, 0, 5, 0, 1, 5]).nrow
        ≠ (NumericMatrix.mk 3 2 [1, 0, 5, 0, 1, 5]).ncol ∧
      mahalanobis_cpp ⟨2, 2, [1, 3, 2, 4]⟩ [1, 1] ⟨3, 2, [1, 0, 5, 0, 1, 5]⟩
        = some [1, 13]) := by
  refine ⟨⟨by decide, by with_unfolding_all decide⟩, ⟨by decide, by with_unfolding_all decide⟩,
    ⟨by decide, by with_unfolding_all decide⟩⟩

/-- C3, amended: `mahalanobis_cpp` makes no dimension check. Whenever `mu` has
at least p entries and `Sinv` has at least p rows and p columns (p the column
count of `X`) it returns a vector of length n, whose entry `i` is the quadratic
form over the first p entries of `mu` and the leading p-by-p block of `Sinv`. -/
theorem C3_mahalanobis_no_dimension_check (X : NumericMatrix) (mu : NumericVector)
    (Sinv : NumericMatrix) (hX : X.WellFormed) (hmu : X.ncol ≤ mu.length)
    (hS : Sinv.WellFormed) (hr : X.ncol ≤ Sinv.nrow) (hc : X.ncol ≤ Sinv.ncol) :
    ∃ result, mahalanobis_cpp X mu Sinv = some result ∧ result.length = X.nrow ∧
      ∀ i, i < X.nrow → result[i]? = some
        (∑ j in Finset.range X.ncol, (X.entry i j - mu.entry j) *
          ∑ k in Finset.range X.ncol, Sinv.entry j k * (X.entry i k - mu.entry k)) :=
  ⟨_, mahalanobis_cpp_eq_some X mu Sinv hX hmu hS hr hc,
    tab_spec X.nrow (spec_quadForm X mu Sinv)⟩

/-- Witness for the amended C3, at `mu` of length p + 1 and a 3-by-3 `Sinv`. -/
theorem C3_mahalanobis_no_dimension_check_witness :
    ∃ result, mahalanobis_cpp ⟨2, 2, [1, 3, 2, 4]⟩ [1, 1, 7]
        ⟨3, 3, [1, 0, 5, 0, 1, 5, 5, 5, 5]⟩ = some result ∧
      result.length = 2 ∧
      ∀ i, i < 2 → result[i]? = some
        (∑ j in Finset.range 2,
          ((NumericMatrix.mk 2 2 [1, 3, 2, 4]).entry i j - NumericVector.entry [1, 1, 7] j) *
          ∑ k in Finset.range 2, (NumericMatrix.mk 3 3 [1, 0, 5, 0, 1, 5, 5, 5, 5]).entry j k *
            ((NumericMatrix.mk 2 2 [1, 3, 2, 4]).entry i k - NumericVector.entry [1, 1, 7] k)) :=
  C3_mahalanobis_no_dimension_check ⟨2, 2, [1, 3, 2, 4]⟩ [1, 1, 7]
    ⟨3, 3, [1, 0, 5, 0, 1, 5, 5, 5, 5]⟩
    (by decide) (by decide) (by decide) (by decide) (by decide)

/-- C4, as stated, fails: with `center` of length k + 1 = 3 against a
2-column `scores`, `pca_distances_cpp` raises nothing and returns a result
vector. -/
theorem C4_dimension_mismatch_not_rejected :
    List.length ([0, 0, 9] : NumericVector) ≠ (NumericMatrix.mk 2 2 [0, 3, 0, 4]).ncol ∧
      pca_distances_cpp ⟨2, 2, [0, 3, 0, 4]⟩ [0, 0, 9] = some [0, 25] :=
  ⟨by decide, by with_unfolding_all decide⟩

/-- C4, amended: `pca_distances_cpp` makes no dimension check. Whenever
`center` has at least k entries (k the column count of `scores`) it returns a
vector of length n, whose entry `i` is the sum of squares over the first k
entries of `center`. -/
theorem C4_pca_no_dimension_check (scores : NumericMatrix) (center : NumericVector)
    (hX : scores.WellFormed) (hc : scores.ncol ≤ center.length) :
    ∃ result, pca_distances_cpp scores center = some result ∧
      result.length = scores.nrow ∧
      ∀ i, i < scores.nrow → result[i]? = some
        (∑ j in Finset.range scores.ncol, (scores.entry i j - center.entry j) ^ 2) :=
  ⟨_, pca_distances_cpp_eq_some scores center hX hc,
    tab_spec scores.nrow (spec_sqDist scores center)⟩

/-- Witness for the amended C4, at `center` of length k + 1. -/
theorem C4_pca_no_dimension_check_witness :
    ∃ result, pca_distances_cpp ⟨2, 2, [0, 3, 0, 4]⟩ [0, 0, 9] = some result ∧
      result.length = 2 ∧
      ∀ i, i < 2 → result[i]? = some
        (∑ j in Finset.range 2,
          ((NumericMatrix.mk 2 2 [0, 3, 0, 4]).entry i j
            - NumericVector.entry [0, 0, 9] j) ^ 2) :=
  C4_pca_no_dimension_check ⟨2, 2, [0, 3, 0, 4]⟩ [0, 0, 9] (by decide) (by decide)

/-- C5, as stated, fails on an infinite entry: with `X = [[Inf, 0]]`,
`mu = [0, 0]` and `Sinv` the 2-by-2 identity, `mahalanobis_cpp` computes
`tmp[1] = 0 * Inf = NaN` and returns `[NaN]`, while `pca_distances_cpp`
returns `[Inf]`. -/
theorem C5_identity_differs_at_infinite_entry :
    (NumericMatrix.identity 2).toDouble = ⟨2, 2, [1, 0, 0, 1]⟩
    ∧ mahalanobis_cpp_double ⟨1, 2, [.posInf, 0]⟩ [0, 0] ⟨2, 2, [1, 0, 0, 1]⟩ = some [.nan]
    ∧ pca_distances_cpp_double ⟨1, 2, [.posInf, 0]⟩ [0, 0] = some [.posInf] :=
  ⟨by with_unfolding_all decide, by with_unfolding_all decide, by with_unfolding_all decide⟩

/-- C5, amended: for every n-by-p matrix `X` and length-p vector `mu` with
finite entries, in exact arithmetic on finite values, with `Sinv` the p-by-p
identity, `mahalanobis_cpp X mu I` returns the same vector as
`pca_distances_cpp X mu`, and its entry `i` is the squared Euclidean distance
`sum_j (X[i,j] - mu[j])^2` from row `i` of `X` to `mu`. -/
theorem C5_identity_reduces_to_euclidean (X : NumericMatrix) (mu : NumericVector)
    (hX : X.WellFormed) (hmu : mu.length = X.ncol) :
    ∃ result, mahalanobis_cpp_double X.toDouble mu.toDouble
        (NumericMatrix.identity X.ncol).toDouble = some result ∧
      pca_distances_cpp_double X.toDouble mu.toDouble = some result ∧
      result.length = X.nrow ∧
      ∀ i, i < X.nrow → result[i]? = some
        (Double.fin (∑ j in Finset.range X.ncol, (X.entry i j - mu.entry j) ^ 2)) := by
  refine ⟨_, ?_, pca_distances_cpp_double_eq_some X mu hX (by omega),
    toDouble_tab_length _ _, fun i hi => toDouble_tab_getElem? _ _ i hi⟩
  have hI : (NumericMatrix.identity X.ncol).WellFormed := NumericMatrix.ofFn_wellFormed _ _ _
  rw [mahalanobis_cpp_double_eq_some X mu _ hX (by omega) hI (le_refl _) (le_refl _)]
  congr 2
  apply tab_congr
  intro i _
  rw [NumericMatrix.identity, spec_quadForm_diag, one_mul]

/-- Witness for the amended C5, at the spec's 2-by-2 scenario. -/
theorem C5_identity_reduces_to_euclidean_witness :
    ∃ result, mahalanobis_cpp_double (NumericMatrix.toDouble ⟨2, 2, [1, 3, 2, 4]⟩)
        (NumericVector.toDouble [1, 1]) (NumericMatrix.identity 2).toDouble = some result ∧
      pca_distances_cpp_double (NumericMatrix.toDouble ⟨2, 2, [1, 3, 2, 4]⟩)
        (NumericVector.toDouble [1, 1]) = some result ∧
      result.length = 2 ∧
      ∀ i, i < 2 → result[i]? = some
        (Double.fin (∑ j in Finset.range 2,
          ((NumericMatrix.mk 2 2 [1, 3, 2, 4]).entry i j
            - NumericVector.entry [1, 1] j) ^ 2)) :=
  C5_identity_reduces_to_euclidean ⟨2, 2, [1, 3, 2, 4]⟩ [1, 1] (by decide) (by decide)

/-- C6, as stated, fails on an infinite entry: with `X = [[Inf, 0]]`,
`mu = [0, 0]` and `Sinv = 3 * I`, `mahalanobis_cpp` computes
`tmp[1] = 0 * Inf = NaN` and returns `[NaN]`, while `pca_distances_cpp`
returns `[Inf]` and `3 * Inf = Inf`. -/
theorem C6_scaled_identity_differs_at_infinite_entry :
    (NumericMatrix.diag 3 2).toDouble = ⟨2, 2, [3, 0, 0, 3]⟩
    ∧ mahalanobis_cpp_double ⟨1, 2, [.posInf, 0]⟩ [0, 0] ⟨2, 2, [3, 0, 0, 3]⟩ = some [.nan]
    ∧ pca_distances_cpp_double ⟨1, 2, [.posInf, 0]⟩ [0, 0] = some [.posInf]
    ∧ (3 : Double) * Double.posInf = Double.posInf
    ∧ Double.nan ≠ Double.posInf :=
  ⟨by with_unfolding_all decide, by with_unfolding_all decide, by with_unfolding_all decide,
    by with_unfolding_all decide, by decide⟩

/-- C6, amended: for every n-by-p matrix `X` and length-p vector `mu` with
finite entries and every finite scalar `c > 0`, in exact arithmetic on finite
values, with `Sinv = c * I`, entry `i` of `mahalanobis_cpp X mu (c * I)` is
`c` times entry `i` of `pca_distances_cpp X mu`. -/
theorem C6_scaled_identity_scales_distance (X : NumericMatrix) (mu : NumericVector) (c : ℚ)
    (hX : X.WellFormed) (hmu : mu.length = X.ncol) (_hc : 0 < c) :
    ∃ result euclid, mahalanobis_cpp_double X.toDouble mu.toDouble
        (NumericMatrix.diag c X.ncol).toDouble = some result ∧
      pca_distances_cpp_double X.toDouble mu.toDouble = some euclid ∧
      result.length = X.nrow ∧ euclid.length = X.nrow ∧
      ∀ i, i < X.nrow → ∃ d, euclid[i]? = some d ∧
        result[i]? = some (Double.fin c * d) := by
  have hD : (NumericMatrix.diag c X.ncol).WellFormed := NumericMatrix.ofFn_wellFormed _ _ _
  refine ⟨_, _,
    mahalanobis_cpp_double_eq_some X mu _ hX (by omega) hD (le_refl _) (le_refl _),
    pca_distances_cpp_double_eq_some X mu hX (by omega),
    toDouble_tab_length _ _, toDouble_tab_length _ _, ?_⟩
  intro i hi
  refine ⟨Double.fin (spec_sqDist X mu i), toDouble_tab_getElem? _ _ i hi, ?_⟩
  rw [toDouble_tab_getElem? _ _ i hi, spec_quadForm_diag, fin_mul]

/-- Witness for the amended C6, at the spec's 2-by-2 scenario with `c = 3`. -/
theorem C6_scaled_identity_scales_distance_witness :
    ∃ result euclid, mahalanobis_cpp_double (NumericMatrix.toDouble ⟨2, 2, [1, 3, 2, 4]⟩)
        (NumericVector.toDouble [1, 1]) (NumericMatrix.diag 3 2).toDouble = some result ∧
      pca_distances_cpp_double (NumericMatrix.toDouble ⟨2, 2, [1, 3, 2, 4]⟩)
        (NumericVector.toDouble [1, 1]) = some euclid ∧
      result.length = 2 ∧ euclid.length = 2 ∧
      ∀ i, i < 2 → ∃ d, euclid[i]? = some d ∧ result[i]? = some (Double.fin 3 * d) :=
  C6_scaled_identity_scales_distance ⟨2, 2, [1, 3, 2, 4]⟩ [1, 1] 3
    (by decide) (by decide) (by norm_num)

/-- C7, as stated, fails on infinite entries. With `X = [[1, 2]]`, `mu = [1, 2]`
(row 0 equals `mu`) and `Sinv = [[Inf, 0], [0, 1]]` the kernel computes
`tmp[0] = Inf * 0 = NaN` and returns `[NaN]`; with `X = [[Inf]]`, `mu = [Inf]`
and `Sinv = [[1]]` it computes `Inf - Inf = NaN` and returns `[NaN]`. -/
theorem C7_not_zero_at_the_mean_with_infinity :
    mahalanobis_cpp_double ⟨1, 2, [1, 2]⟩ [1, 2] ⟨2, 2, [.posInf, 0, 0, 1]⟩ = some [.nan]
    ∧ mahalanobis_cpp_double ⟨1, 1, [.posInf]⟩ [.posInf] ⟨1, 1, [1]⟩ = some [.nan]
    ∧ Double.nan ≠ 0 :=
  ⟨by with_unfolding_all decide, by with_unfolding_all decide, by decide⟩

/-- C7, amended: for every length-p `mu`, every p-by-p `Sinv` and every `X`
with p columns, all with finite entries (nothing else assumed of `Sinv`), if
row `i` of `X` equals `mu` entry by entry then entry `i` of
`mahalanobis_cpp X mu Sinv` is 0. -/
theorem C7_zero_at_the_mean (X : NumericMatrix) (mu : NumericVector) (Sinv : NumericMatrix)
    (i : Nat) (hX : X.WellFormed) (hmu : mu.length = X.ncol) (hS : Sinv.WellFormed)
    (hr : Sinv.nrow = X.ncol) (hc : Sinv.ncol = X.ncol) (hi : i < X.nrow)
    (hrow : ∀ j, j < X.ncol → X.entry i j = mu.entry j) :
    ∃ result, mahalanobis_cpp_double X.toDouble mu.toDouble Sinv.toDouble = some result ∧
      result[i]? = some 0 := by
  refine ⟨_, mahalanobis_cpp_double_eq_some X mu Sinv hX (by omega) hS (by omega) (by omega),
    ?_⟩
  rw [toDouble_tab_getElem? _ _ i hi, spec_quadForm_eq_zero X mu Sinv i hrow]
  rfl

/-- Witness for the amended C7: row 1 of `X = [[5,6],[1,2]]` equals
`mu = [1,2]`, with a `Sinv` that is neither symmetric nor definite. -/
theorem C7_zero_at_the_mean_witness :
    ∃ result, mahalanobis_cpp_double (NumericMatrix.toDouble ⟨2, 2, [5, 1, 6, 2]⟩)
        (NumericVector.toDouble [1, 2]) (NumericMatrix.toDouble ⟨2, 2, [1, -4, 7, -2]⟩)
        = some result ∧
      result[1]? = some 0 :=
  C7_zero_at_the_mean ⟨2, 2, [5, 1, 6, 2]⟩ [1, 2] ⟨2, 2, [1, -4, 7, -2]⟩ 1
    (by decide) (by decide) (by decide) (by decide) (by decide) (by decide)
    (by
      intro j hj
      interval_cases j <;> rfl)

/-- C8, as stated, fails on an infinite entry: with `scores = [[Inf]]` and
`center = [Inf]` (row 0 equals `center`) the kernel computes
`Inf - Inf = NaN` and returns `[NaN]`, not `[0]`. -/
theorem C8_not_zero_at_the_center_with_infinity :
    pca_distances_cpp_double ⟨1, 1, [.posInf]⟩ [.posInf] = some [.nan]
    ∧ Double.nan ≠ 0 :=
  ⟨by with_unfolding_all decide, by decide⟩

/-- C8, amended: for every length-k `center` and every `scores` with k
columns, both with finite entries, if row `i` of `scores` equals `center`
entry by entry then entry `i` of `pca_distances_cpp scores center` is 0. -/
theorem C8_zero_at_the_center (scores : NumericMatrix) (center : NumericVector) (i : Nat)
    (hX : scores.WellFormed) (hc : center.length = scores.ncol) (hi : i < scores.nrow)
    (hrow : ∀ j, j < scores.ncol → scores.entry i j = center.entry j) :
    ∃ result, pca_distances_cpp_double scores.toDouble center.toDouble = some result ∧
      result[i]? = some 0 := by
  refine ⟨_, pca_distances_cpp_double_eq_some scores center hX (by omega), ?_⟩
  rw [toDouble_tab_getElem? _ _ i hi, spec_sqDist_eq_zero scores center i hrow]
  rfl

/-- Witness for the amended C8: row 1 of `scores = [[5,6],[1,2]]` equals
`center = [1,2]`. -/
theorem C8_zero_at_the_center_witness :
    ∃ result, pca_distances_cpp_double (NumericMatrix.toDouble ⟨2, 2, [5, 1, 6, 2]⟩)
        (NumericVector.toDouble [1, 2]) = some result ∧
      result[1]? = some 0 :=
  C8_zero_at_the_center ⟨2, 2, [5, 1, 6, 2]⟩ [1, 2] 1
    (by decide) (by decide) (by decide)
    (by
      intro j hj
      interval_cases j <;> rfl)

/-- C9: for every permutation `σ` of the row indices `[0, n)`, running a
kernel on the matrix whose rows are permuted by `σ` returns the output of the
kernel on the original matrix permuted by the same `σ`; for `mahalanobis_cpp`
with `mu` and `Sinv` fixed, and for `pca_distances_cpp` with `center` fixed. -/
theorem C9_row_order_preservation :
    (∀ (X : NumericMatrix) (mu : NumericVector) (Sinv : NumericMatrix)
        (σ : Equiv.Perm (Fin X.nrow)),
      X.WellFormed → mu.length = X.ncol →
      Sinv.WellFormed → Sinv.nrow = X.ncol → Sinv.ncol = X.ncol →
      ∃ result, mahalanobis_cpp X mu Sinv = some result ∧
        mahalanobis_cpp (X.permuteRows σ) mu Sinv = some (NumericVector.permute σ result))
    ∧ (∀ (scores : NumericMatrix) (center : NumericVector)
        (σ : Equiv.Perm (Fin scores.nrow)),
      scores.WellFormed → center.length = scores.ncol →
      ∃ result, pca_distances_cpp scores center = some result ∧
        pca_distances_cpp (scores.permuteRows σ) center
          = some (NumericVector.permute σ result)) := by
  constructor
  · intro X mu Sinv σ hX hmu hS hr hc
    refine ⟨_, mahalanobis_cpp_eq_some X mu Sinv hX (by omega) hS (by omega) (by omega), ?_⟩
    have hX' : (X.permuteRows σ).WellFormed := NumericMatrix.ofFn_wellFormed _ _ _
    have hn : (X.permuteRows σ).nrow = X.nrow := rfl
    have hp : (X.permuteRows σ).ncol = X.ncol := rfl
    rw [mahalanobis_cpp_eq_some (X.permuteRows σ) mu Sinv hX' (by omega) hS (by omega)
      (by omega), hn]
    congr 1
    apply tab_congr
    intro i hi
    rw [spec_quadForm_permuteRows X mu Sinv σ i hi, tab_entry _ _ _ (permIndex_lt σ i hi)]
  · intro scores center σ hX hc
    refine ⟨_, pca_distances_cpp_eq_some scores center hX (by omega), ?_⟩
    have hX' : (scores.permuteRows σ).WellFormed := NumericMatrix.ofFn_wellFormed _ _ _
    have hn : (scores.permuteRows σ).nrow = scores.nrow := rfl
    have hp : (scores.permuteRows σ).ncol = scores.ncol := rfl
    rw [pca_distances_cpp_eq_some (scores.permuteRows σ) center hX' (by omega), hn]
    congr 1
    apply tab_congr
    intro i hi
    rw [spec_sqDist_permuteRows scores center σ i hi, tab_entry _ _ _ (permIndex_lt σ i hi)]

/-- Witness for C9: swapping the two rows of `X = [[1,2],[3,4]]`. -/
theorem C9_row_order_preservation_witness :
    ∃ result, mahalanobis_cpp ⟨2, 2, [1, 3, 2, 4]⟩ [1, 1] ⟨2, 2, [1, 0, 0, 1]⟩ = some result ∧
      mahalanobis_cpp
        (NumericMatrix.permuteRows ⟨2, 2, [1, 3, 2, 4]⟩ (Equiv.swap (0 : Fin 2) 1))
        [1, 1] ⟨2, 2, [1, 0, 0, 1]⟩
        = some (NumericVector.permute (Equiv.swap (0 : Fin 2) 1) result) :=
  C9_row_order_preservation.1 ⟨2, 2, [1, 3, 2, 4]⟩ [1, 1] ⟨2, 2, [1, 0, 0, 1]⟩
    (Equiv.swap (0 : Fin 2) 1) (by decide) (by decide) (by decide) (by decide) (by decide)

/-- C10: whatever either kernel returns has exactly one entry per row of its
input matrix, and on every input whose reads stay inside the storage
(zero rows and zero columns included) each kernel does return. -/
theorem C10_result_length :
    (∀ (X : NumericMatrix) (mu : NumericVector) (Sinv : NumericMatrix)
        (result : NumericVector),
      mahalanobis_cpp X mu Sinv = some result → result.length = X.nrow)
    ∧ (∀ (scores : NumericMatrix) (center : NumericVector) (result : NumericVector),
      pca_distances_cpp scores center = some result → result.length = scores.nrow)
    ∧ (∀ (X : NumericMatrix) (mu : NumericVector) (Sinv : NumericMatrix),
      X.WellFormed → X.ncol ≤ mu.length →
      Sinv.WellFormed → X.ncol ≤ Sinv.nrow → X.ncol ≤ Sinv.ncol →
      ∃ result, mahalanobis_cpp X mu Sinv = some result ∧ result.length = X.nrow)
    ∧ (∀ (scores : NumericMatrix) (center : NumericVector),
      scores.WellFormed → scores.ncol ≤ center.length →
      ∃ result, pca_distances_cpp scores center = some result ∧
        result.length = scores.nrow) :=
  ⟨mahalanobis_cpp_length, pca_distances_cpp_length,
    fun X mu Sinv hX hmu hS hr hc =>
      ⟨_, mahalanobis_cpp_eq_some X mu Sinv hX hmu hS hr hc, tab_length _ _⟩,
    fun scores center hX hc =>
      ⟨_, pca_distances_cpp_eq_some scores center hX hc, tab_length _ _⟩⟩

/-- Witness for C10: a matrix with no rows, and a matrix with two rows and no
columns. -/
theorem C10_result_length_witness :
    (∃ result, mahalanobis_cpp ⟨0, 2, []⟩ [1, 1] ⟨2, 2, [1, 0, 0, 1]⟩ = some result ∧
      result.length = 0)
    ∧ (∃ result, mahalanobis_cpp ⟨2, 0, []⟩ [] ⟨0, 0, []⟩ = some result ∧
      result.length = 2)
    ∧ (∃ result, pca_distances_cpp ⟨2, 0, []⟩ [] = some result ∧ result.length = 2)
    ∧ List.length ([0, 25] : NumericVector) = 2 :=
  ⟨C10_result_length.2.2.1 ⟨0, 2, []⟩ [1, 1] ⟨2, 2, [1, 0, 0, 1]⟩
      (by decide) (by decide) (by decide) (by decide) (by decide),
    C10_result_length.2.2.1 ⟨2, 0, []⟩ [] ⟨0, 0, []⟩
      (by decide) (by decide) (by decide) (by decide) (by decide),
    C10_result_length.2.2.2 ⟨2, 0, []⟩ [] (by decide) (by decide),
    C10_result_length.2.1 ⟨2, 2, [0, 3, 0, 4]⟩ [0, 0] [0, 25] (by with_unfolding_all decide)⟩

/-- C11: each output entry depends only on its own input row and the shared
parameters. For two matrices of the same shape that agree on row `i`, entry
`i` of `mahalanobis_cpp` is the same for both (same `mu`, `Sinv`), and entry
`i` of `pca_distances_cpp` is the same for both (same `center`). -/
theorem C11_row_independence :
    (∀ (X Y : NumericMatrix) (mu : NumericVector) (Sinv : NumericMatrix) (i : Nat),
      X.WellFormed → Y.WellFormed → Y.nrow = X.nrow → Y.ncol = X.ncol →
      mu.length = X.ncol → Sinv.WellFormed → Sinv.nrow = X.ncol → Sinv.ncol = X.ncol →
      i < X.nrow → (∀ j, j < X.ncol → X.entry i j = Y.entry i j) →
      ∃ d, (∃ result, mahalanobis_cpp X mu Sinv = some result ∧ result[i]? = some d) ∧
        (∃ result, mahalanobis_cpp Y mu Sinv = some result ∧ result[i]? = some d))
    ∧ (∀ (S T : NumericMatrix) (center : NumericVector) (i : Nat),
      S.WellFormed → T.WellFormed → T.nrow = S.nrow → T.ncol = S.ncol →
      center.length = S.ncol →
      i < S.nrow → (∀ j, j < S.ncol → S.entry i j = T.entry i j) →
      ∃ d, (∃ result, pca_distances_cpp S center = some result ∧ result[i]? = some d) ∧
        (∃ result, pca_distances_cpp T center = some result ∧ result[i]? = some d)) := by
  constructor
  · intro X Y mu Sinv i hX hY hn hp hmu hS hr hc hi hrow
    refine ⟨spec_quadForm X mu Sinv i,
      ⟨_, mahalanobis_cpp_eq_some X mu Sinv hX (by omega) hS (by omega) (by omega),
        tab_getElem? _ _ i hi⟩,
      ⟨_, mahalanobis_cpp_eq_some Y mu Sinv hY (by omega) hS (by omega) (by omega), ?_⟩⟩
    rw [tab_getElem? _ _ i (by omega), spec_quadForm_congr_row X Y mu Sinv i hp hrow]
  · intro S T center i hS hT hn hp hc hi hrow
    refine ⟨spec_sqDist S center i,
      ⟨_, pca_distances_cpp_eq_some S center hS (by omega), tab_getElem? _ _ i hi⟩,
      ⟨_, pca_distances_cpp_eq_some T center hT (by omega), ?_⟩⟩
    rw [tab_getElem? _ _ i (by omega), spec_sqDist_congr_row S T center i hp hrow]

/-- Witness for C11: `X = [[1,2],[3,4]]` and `Y = [[9,9],[3,4]]` agree on
row 1. -/
theorem C11_row_independence_witness :
    ∃ d, (∃ result, mahalanobis_cpp ⟨2, 2, [1, 3, 2, 4]⟩ [1, 1] ⟨2, 2, [1, 0, 0, 1]⟩
          = some result ∧ result[1]? = some d) ∧
      (∃ result, mahalanobis_cpp ⟨2, 2, [9, 3, 9, 4]⟩ [1, 1] ⟨2, 2, [1, 0, 0, 1]⟩
          = some result ∧ result[1]? = some d) :=
  C11_row_independence.1 ⟨2, 2, [1, 3, 2, 4]⟩ ⟨2, 2, [9, 3, 9, 4]⟩ [1, 1]
    ⟨2, 2, [1, 0, 0, 1]⟩ 1
    (by decide) (by decide) (by decide) (by decide) (by decide) (by decide) (by decide)
    (by decide) (by decide)
    (by
      intro j hj
      interval_cases j <;> rfl)

/-- C12: a `Sinv` that is not positive semi-definite is accepted and can give
a negative squared distance. With p = 1, `X = [[1]]`, `mu = [0]` and
`Sinv = [[-1]]` the call returns `[-1]`; so there are dimension-consistent
inputs on which `mahalanobis_cpp` returns a result with a strictly negative
entry, the value of the quadratic form of `Sinv` there. -/
theorem C12_negative_squared_distance :
    mahalanobis_cpp ⟨1, 1, [1]⟩ [0] ⟨1, 1, [-1]⟩ = some [-1]
    ∧ ∃ (X : NumericMatrix) (mu : NumericVector) (Sinv : NumericMatrix)
        (result : NumericVector),
      X.WellFormed ∧ mu.length = X.ncol ∧
      Sinv.WellFormed ∧ Sinv.nrow = X.ncol ∧ Sinv.ncol = X.ncol ∧
      mahalanobis_cpp X mu Sinv = some result ∧
      ∃ i d, result[i]? = some d ∧ d < 0 ∧ d = spec_quadForm X mu Sinv i := by
  have h : mahalanobis_cpp ⟨1, 1, [1]⟩ [0] ⟨1, 1, [-1]⟩ = some [-1] := by
    with_unfolding_all decide
  refine ⟨h, ⟨1, 1, [1]⟩, [0], ⟨1, 1, [-1]⟩, [-1], by decide, by decide, by decide,
    by decide, by decide, h, 0, -1, rfl, by norm_num, ?_⟩
  with_unfolding_all decide

/-- C13: for every `Sinv` of the form `Aᵀ * A` (`A` any m-by-p matrix), every
length-p `mu` and every n-by-p `X`, every entry of `mahalanobis_cpp X mu Sinv`
is `>= 0`: entry `i` is the squared norm of `A * (X[i,:] - mu)`. -/
theorem C13_nonneg_for_gram_matrix (A X : NumericMatrix) (mu : NumericVector)
    (_hA : A.WellFormed) (hAp : A.ncol = X.ncol) (hX : X.WellFormed)
    (hmu : mu.length = X.ncol) :
    ∃ result, mahalanobis_cpp X mu A.gram = some result ∧ result.length = X.nrow ∧
      ∀ i, i < X.nrow → ∃ d, result[i]? = some d ∧ 0 ≤ d ∧
        d = ∑ l in Finset.range A.nrow,
          (∑ k in Finset.range X.ncol, A.entry l k * (X.entry i k - mu.entry k)) ^ 2 := by
  have hG : A.gram.WellFormed := NumericMatrix.ofFn_wellFormed _ _ _
  have hr : A.gram.nrow = A.ncol := rfl
  have hc : A.gram.ncol = A.ncol := rfl
  refine ⟨_, mahalanobis_cpp_eq_some X mu A.gram hX (by omega) hG (by omega) (by omega),
    tab_length _ _, ?_⟩
  intro i hi
  refine ⟨_, tab_getElem? _ _ i hi, ?_, spec_quadForm_gram X mu A i hAp⟩
  rw [spec_quadForm_gram X mu A i hAp]
  apply Finset.sum_nonneg
  intro l _
  exact sq_nonneg _

/-- Witness for C13: `A = [[1,2]]` (1-by-2), `X = [[1,2],[3,4]]`, `mu = [1,1]`. -/
theorem C13_nonneg_for_gram_matrix_witness :
    ∃ result, mahalanobis_cpp ⟨2, 2, [1, 3, 2, 4]⟩ [1, 1]
        (NumericMatrix.gram ⟨1, 2, [1, 2]⟩) = some result ∧
      result.length = 2 ∧
      ∀ i, i < 2 → ∃ d, result[i]? = some d ∧ 0 ≤ d ∧
        d = ∑ l in Finset.range 1,
          (∑ k in Finset.range 2, (NumericMatrix.mk 1 2 [1, 2]).entry l k *
            ((NumericMatrix.mk 2 2 [1, 3, 2, 4]).entry i k
              - NumericVector.entry [1, 1] k)) ^ 2 :=
  C13_nonneg_for_gram_matrix ⟨1, 2, [1, 2]⟩ ⟨2, 2, [1, 3, 2, 4]⟩ [1, 1]
    (by decide) (by decide) (by decide) (by decide)

/-- C14: for every n-by-k `scores` and length-k `center`, every entry of
`pca_distances_cpp scores center` is `>= 0`, and an entry `i` equal to 0
implies that row `i` of `scores` equals `center` in every coordinate. -/
theorem C14_pca_nonneg_and_definite (scores : NumericMatrix) (center : NumericVector)
    (hX : scores.WellFormed) (hc : center.length = scores.ncol) :
    ∃ result, pca_distances_cpp scores center = some result ∧
      result.length = scores.nrow ∧
      ∀ i, i < scores.nrow → ∃ d, result[i]? = some d ∧ 0 ≤ d ∧
        (d = 0 → ∀ j, j < scores.ncol → scores.entry i j = center.entry j) := by
  refine ⟨_, pca_distances_cpp_eq_some scores center hX (by omega), tab_length _ _, ?_⟩
  intro i hi
  exact ⟨_, tab_getElem? _ _ i hi, spec_sqDist_nonneg scores center i,
    spec_sqDist_eq_zero_imp scores center i⟩

/-- Witness for C14, at the spec's reduced-space scenario. -/
theorem C14_pca_nonneg_and_definite_witness :
    ∃ result, pca_distances_cpp ⟨2, 2, [0, 3, 0, 4]⟩ [0, 0] = some result ∧
      result.length = 2 ∧
      ∀ i, i < 2 → ∃ d, result[i]? = some d ∧ 0 ≤ d ∧
        (d = 0 → ∀ j, j < 2 →
          (NumericMatrix.mk 2 2 [0, 3, 0, 4]).entry i j = NumericVector.entry [0, 0] j) :=
  C14_pca_nonneg_and_definite ⟨2, 2, [0, 3, 0, 4]⟩ [0, 0] (by decide) (by decide)

/-- C15, as stated, fails for an infinite `v`: with `X = [[1]]`, `mu = [0]`,
`Sinv = [[1]]` both kernels return `[1]`, but after adding `v = [Inf]` to the
row of `X` and to `mu` both are `[Inf]`, the kernels compute
`Inf - Inf = NaN` and return `[NaN]`. -/
theorem C15_translation_by_infinity_changes_result :
    mahalanobis_cpp_double ⟨1, 1, [1]⟩ [0] ⟨1, 1, [1]⟩ = some [1]
    ∧ mahalanobis_cpp_double (DoubleMatrix.addToRows ⟨1, 1, [1]⟩ [.posInf])
        (DoubleVector.add [0] [.posInf]) ⟨1, 1, [1]⟩ = some [.nan]
    ∧ pca_distances_cpp_double ⟨1, 1, [1]⟩ [0] = some [1]
    ∧ pca_distances_cpp_double (DoubleMatrix.addToRows ⟨1, 1, [1]⟩ [.posInf])
        (DoubleVector.add [0] [.posInf]) = some [.nan]
    ∧ DoubleMatrix.addToRows ⟨1, 1, [1]⟩ [.posInf] = ⟨1, 1, [.posInf]⟩
    ∧ DoubleVector.add [0] [.posInf] = [.posInf]
    ∧ Double.nan ≠ 1 :=
  ⟨by with_unfolding_all decide, by with_unfolding_all decide, by with_unfolding_all decide,
    by with_unfolding_all decide, by with_unfolding_all decide, by with_unfolding_all decide,
    by with_unfolding_all decide⟩

/-- C15, amended: for finite entries and in exact arithmetic on finite values,
for every length-p vector `v`, adding `v` to every row of `X` and to `mu`
leaves `mahalanobis_cpp` unchanged; likewise adding a length-k `v` to every
row of `scores` and to `center` leaves `pca_distances_cpp` unchanged. -/
theorem C15_translation_invariance :
    (∀ (X : NumericMatrix) (mu : NumericVector) (Sinv : NumericMatrix) (v : NumericVector),
      X.WellFormed → mu.length = X.ncol →
      Sinv.WellFormed → Sinv.nrow = X.ncol → Sinv.ncol = X.ncol → v.length = X.ncol →
      ∃ result, mahalanobis_cpp_double X.toDouble mu.toDouble Sinv.toDouble = some result ∧
        mahalanobis_cpp_double (X.toDouble.addToRows v.toDouble)
          (DoubleVector.add mu.toDouble v.toDouble) Sinv.toDouble = some result)
    ∧ (∀ (scores : NumericMatrix) (center v : NumericVector),
      scores.WellFormed → center.length = scores.ncol → v.length = scores.ncol →
      ∃ result, pca_distances_cpp_double scores.toDouble center.toDouble = some result ∧
        pca_distances_cpp_double (scores.toDouble.addToRows v.toDouble)
          (DoubleVector.add center.toDouble v.toDouble) = some result) := by
  constructor
  · intro X mu Sinv v hX hmu hS hr hc _
    refine ⟨_, mahalanobis_cpp_double_eq_some X mu Sinv hX (by omega) hS (by omega)
      (by omega), ?_⟩
    have hX' : (X.addToRows v).WellFormed := NumericMatrix.ofFn_wellFormed _ _ _
    have hn : (X.addToRows v).nrow = X.nrow := rfl
    have hp : (X.addToRows v).ncol = X.ncol := rfl
    have hl : (NumericVector.add mu v).length = mu.length := tab_length _ _
    rw [← addToRows_toDouble, ← add_toDouble,
      mahalanobis_cpp_double_eq_some (X.addToRows v) (NumericVector.add mu v) Sinv hX'
        (by omega) hS (by omega) (by omega), hn]
    congr 2
    apply tab_congr
    intro i hi
    exact spec_quadForm_translate X mu v Sinv i hi (by omega)
  · intro scores center v hX hc _
    refine ⟨_, pca_distances_cpp_double_eq_some scores center hX (by omega), ?_⟩
    have hX' : (scores.addToRows v).WellFormed := NumericMatrix.ofFn_wellFormed _ _ _
    have hn : (scores.addToRows v).nrow = scores.nrow := rfl
    have hp : (scores.addToRows v).ncol = scores.ncol := rfl
    have hl : (NumericVector.add center v).length = center.length := tab_length _ _
    rw [← addToRows_toDouble, ← add_toDouble,
      pca_distances_cpp_double_eq_some (scores.addToRows v) (NumericVector.add center v) hX'
        (by omega), hn]
    congr 2
    apply tab_congr
    intro i hi
    exact spec_sqDist_translate scores center v i hi (by omega)

/-- Witness for the amended C15: the 2-by-2 scenario translated by
`v = [10, -3]`. -/
theorem C15_translation_invariance_witness :
    ∃ result, mahalanobis_cpp_double (NumericMatrix.toDouble ⟨2, 2, [1, 3, 2, 4]⟩)
        (NumericVector.toDouble [1, 1]) (NumericMatrix.toDouble ⟨2, 2, [1, 0, 0, 1]⟩)
        = some result ∧
      mahalanobis_cpp_double
        ((NumericMatrix.toDouble ⟨2, 2, [1, 3, 2, 4]⟩).addToRows
          (NumericVector.toDouble [10, -3]))
        (DoubleVector.add (NumericVector.toDouble [1, 1]) (NumericVector.toDouble [10, -3]))
        (NumericMatrix.toDouble ⟨2, 2, [1, 0, 0, 1]⟩) = some result :=
  C15_translation_invariance.1 ⟨2, 2, [1, 3, 2, 4]⟩ [1, 1] ⟨2, 2, [1, 0, 0, 1]⟩ [10, -3]
    (by decide) (by decide) (by decide) (by decide) (by decide) (by decide)

/-- C16: for every n-by-p `X`, length-p `mu` and p-by-p `Sinv` (not assumed
symmetric), `mahalanobis_cpp X mu Sinv` and
`mahalanobis_cpp X mu (transpose Sinv)` return the same vector. -/
theorem C16_transpose_invariance (X : NumericMatrix) (mu : NumericVector)
    (Sinv : NumericMatrix) (hX : X.WellFormed) (hmu : mu.length = X.ncol)
    (hS : Sinv.WellFormed) (hr : Sinv.nrow = X.ncol) (hc : Sinv.ncol = X.ncol) :
    ∃ result, mahalanobis_cpp X mu Sinv = some result ∧
      mahalanobis_cpp X mu Sinv.transpose = some result := by
  refine ⟨_, mahalanobis_cpp_eq_some X mu Sinv hX (by omega) hS (by omega) (by omega), ?_⟩
  have hT : Sinv.transpose.WellFormed := NumericMatrix.ofFn_wellFormed _ _ _
  have hTr : Sinv.transpose.nrow = Sinv.ncol := rfl
  have hTc : Sinv.transpose.ncol = Sinv.nrow := rfl
  rw [mahalanobis_cpp_eq_some X mu Sinv.transpose hX (by omega) hT (by omega) (by omega)]
  congr 1
  apply tab_congr
  intro i _
  exact spec_quadForm_transpose X mu Sinv i hr hc

/-- Witness for C16: the non-symmetric `Sinv = [[1,7],[-4,-2]]`. -/
theorem C16_transpose_invariance_witness :
    ∃ result, mahalanobis_cpp ⟨2, 2, [1, 3, 2, 4]⟩ [1, 1] ⟨2, 2, [1, -4, 7, -2]⟩
        = some result ∧
      mahalanobis_cpp ⟨2, 2, [1, 3, 2, 4]⟩ [1, 1]
        (NumericMatrix.transpose ⟨2, 2, [1, -4, 7, -2]⟩) = some result :=
  C16_transpose_invariance ⟨2, 2, [1, 3, 2, 4]⟩ [1, 1] ⟨2, 2, [1, -4, 7, -2]⟩
    (by decide) (by decide) (by decide) (by decide) (by decide)
